import Mathlib

/-!
# NarcoDoc: the file-metadata catalog of `NarcoDoc.cpp`

A shallow embedding of the classes `File` (with its five subclasses) and
`FileManager`, followed by the properties of the catalog operations.

Modelling conventions.

* A `File*` is modelled by the value `File`: the address of the heap object
  (`addr`, the identity of the pointer) together with the object stored there.
  None of the `FileManager` methods writes to a `File`, so the object behind a
  pointer is constant during every operation studied here.
* `std::vector<File*>` is `List File`; `push_back` appends at the end.
* `size_t` is `Nat`; `SIZE_MAX` is the largest value of a 64-bit `size_t`.
* `std::string` is `String`; `==` and `<` are equality and the lexicographic
  order on the characters.
* What a method writes to `cout` is returned as a list of `Message`s; the
  character `deleteFile` reads from `cin` is an argument.
* `std::sort` is the standard library's, not this program's: it is a parameter of
  `sortFiles`, constrained by the contract the C++ standard gives for it.
* The text file read by `addFilesFromTextFile` is the list of its lines, as
  `getline(file, line)` delivers them; a `stringstream` is the list of its unread
  characters; `new` returns an address supplied by the caller of the model.
* An exception that nothing catches (`std::stoi` throws two) ends the import with
  an `ImportError`. Where the standard leaves the behaviour undefined the model
  follows the compiled program: the `int` product `stoi(...) * 1024` is reduced to
  32 bits, and the local `size`, when it is read without having been assigned,
  holds a value supplied by the caller of the model.
* Where one implementation of `std::sort` is needed, it is that of the GNU C++
  library, modelled routine by routine.
-/

namespace NarcoDoc

/-! ## The data model -/

/-- The five concrete subclasses of the abstract class `File`. -/
inductive FileClass where
  | TextDocument
  | PDFDocument
  | ImageFile
  | VideoFile
  | AudioFile
deriving DecidableEq, Repr

/-- A `File*`: the address it holds and the fields of the object it points to.
`cls` is the dynamic class of the object; `modificationDate` is not set by the
constructor (it starts empty) and is changed by `setModificationDate` only. -/
structure File where
  addr : Nat
  cls : FileClass
  name : String
  path : String
  creationDate : String
  modificationDate : String
  size : Nat
  tags : List String
deriving DecidableEq, Repr

/-- The constant `SIZE_MAX` for a 64-bit `size_t`. -/
def SIZE_MAX : Nat := 2 ^ 64 - 1

namespace File

def getName (f : File) : String := f.name
def getPath (f : File) : String := f.path
def getCreationDate (f : File) : String := f.creationDate
def getModificationDate (f : File) : String := f.modificationDate
def getSize (f : File) : Nat := f.size
def getTags (f : File) : List String := f.tags

/-- The virtual method `getType`, overridden in each subclass. -/
def getType (f : File) : String :=
  match f.cls with
  | .TextDocument => "TextDocument"
  | .PDFDocument => "PDFDocument"
  | .ImageFile => "ImageFile"
  | .VideoFile => "VideoFile"
  | .AudioFile => "AudioFile"

end File

/-- The algorithm `std::find` over a vector of strings: the position of the first
element equal to `x`, or the length of the vector (the end iterator). -/
def find (v : List String) (x : String) : Nat :=
  v.findIdx (fun t => t == x)

/-- The algorithm `std::find_if`: the position of the first element satisfying `p`,
or the length of the vector (the end iterator). -/
def find_if (v : List File) (p : File → Bool) : Nat :=
  v.findIdx p

/-- The method `File::hasTag`: `find(tags.begin(), tags.end(), tag) != tags.end()`. -/
def File.hasTag (f : File) (tag : String) : Bool :=
  find f.tags tag != f.tags.length

/-- The method `std::string::empty`. -/
def empty (s : String) : Bool := s == ""

/-- The class `FileManager`: the vector of live files and the archive. -/
structure FileManager where
  files : List File
  archive : List File
deriving DecidableEq, Repr

/-- What the methods print on `cout`, one constructor per printed line:
`movedToArchive n` is "Файл n перемещен в архив.", `notFound n` is
"Файл n не найден.", `confirmPrompt n` is the question
"Вы уверены, что хотите удалить файл n? (y/n): " and `deleted n` is
"Файл n удален.". -/
inductive Message where
  | movedToArchive (name : String)
  | notFound (name : String)
  | confirmPrompt (name : String)
  | deleted (name : String)
deriving DecidableEq, Repr

/-! ## The operations of `FileManager` -/

/-- The method `addFile`: `files.push_back(file)`. -/
def addFile (m : FileManager) (file : File) : FileManager :=
  { m with files := m.files ++ [file] }

/-- The condition of the `if` in the loop of `search`. -/
def searchCond (file : File) (type tag : String) (minSize maxSize : Nat)
    (creationDate modificationDate : String) : Bool :=
  (empty type || file.getType == type) &&
  (empty tag || file.hasTag tag) &&
  (decide (file.getSize ≥ minSize) && decide (file.getSize ≤ maxSize)) &&
  (empty creationDate || file.getCreationDate == creationDate) &&
  (empty modificationDate || file.getModificationDate == modificationDate)

/-- The method `search`: one pass over `files`, pushing every file that passes the
filter on the back of `result`. The defaults of the C++ signature are
`""`, `""`, `0`, `SIZE_MAX`, `""`, `""`. -/
def search (m : FileManager) (type tag : String) (minSize maxSize : Nat)
    (creationDate modificationDate : String) : List File :=
  m.files.foldl
    (fun result file =>
      if searchCond file type tag minSize maxSize creationDate modificationDate then
        result ++ [file]
      else result)
    []

/-- The method `getFileByName`: `none` is the null pointer. -/
def getFileByName (m : FileManager) (name : String) : Option File :=
  let it := find_if m.files (fun f => f.getName == name)
  if h : it < m.files.length then some (m.files.get ⟨it, h⟩) else none

/-- The method `moveToArchive`. `it != files.end()` is `it < files.length`. -/
def moveToArchive (m : FileManager) (name : String) : FileManager × List Message :=
  let it := find_if m.files (fun f => f.getName == name)
  if h : it < m.files.length then
    ({ files := m.files.eraseIdx it, archive := m.archive ++ [m.files.get ⟨it, h⟩] },
      [Message.movedToArchive name])
  else
    (m, [Message.notFound name])

/-- The method `deleteFile`. `confirm` is the character read from `cin` after the
prompt (it is read only when the file was found). `delete *it` frees the object and
has no effect on the two vectors. -/
def deleteFile (m : FileManager) (name : String) (confirm : Char) :
    FileManager × List Message :=
  let it := find_if m.files (fun f => f.getName == name)
  if it < m.files.length then
    if confirm == 'y' || confirm == 'Y' then
      ({ m with files := m.files.eraseIdx it },
        [Message.confirmPrompt name, Message.deleted name])
    else
      (m, [Message.confirmPrompt name])
  else
    (m, [Message.notFound name])

/-- The sample catalog built at the start of `main`. -/
def sampleManager : FileManager :=
  { files :=
      [ ⟨1, .PDFDocument, "Report.pdf", "C:/Documents", "10.05.2023", "", 200, ["work", "project"]⟩,
        ⟨2, .ImageFile, "Image.jpg", "C:/Pictures", "15.11.2022", "", 1500, ["vacation", "family"]⟩,
        ⟨3, .TextDocument, "Notes.txt", "C:/Documents", "01.01.2021", "", 50, ["work", "personal"]⟩,
        ⟨4, .VideoFile, "Video.mp4", "C:/Videos", "20.02.2020", "", 500000, ["work"]⟩,
        ⟨5, .AudioFile, "Podcast.mp3", "C:/Music", "05.04.2021", "", 100000, ["project"]⟩ ],
    archive := [] }

/-! ## Sorting -/

/-- The requirement the C++ standard puts on the comparison object handed to
`std::sort`: it induces a strict weak ordering. -/
structure StrictWeakOrdering (comp : File → File → Bool) : Prop where
  irrefl : ∀ a, comp a a = false
  trans : ∀ a b c, comp a b = true → comp b c = true → comp a c = true
  equiv_trans : ∀ a b c, comp a b = false → comp b a = false →
    comp b c = false → comp c b = false → comp a c = false ∧ comp c a = false

/-- The contract of `std::sort` in the C++ standard: for a comparison object that
is a strict weak ordering, the range afterwards holds the same elements and is
sorted with respect to `comp`, that is `comp(*(i + n), *i) == false` for every
iterator `i` and every `n`. The standard fixes neither the algorithm nor the order
of equivalent elements. -/
def StdSortContract (stdSort : (File → File → Bool) → List File → List File) : Prop :=
  ∀ comp v, StrictWeakOrdering comp →
    (stdSort comp v).Perm v ∧ (stdSort comp v).Pairwise (fun a b => comp b a = false)

/-- The method `sortFiles`; `stdSort` is `std::sort`, and the result is the content
of the vector passed by reference when the method returns. -/
def sortFiles (stdSort : (File → File → Bool) → List File → List File)
    (files : List File) (sortBy : String) : List File :=
  if sortBy == "name" then
    stdSort (fun a b => decide (a.getName < b.getName)) files
  else if sortBy == "creationDate" then
    stdSort (fun a b => decide (a.getCreationDate < b.getCreationDate)) files
  else if sortBy == "size" then
    stdSort (fun a b => decide (a.getSize < b.getSize)) files
  else
    files

/-- One implementation of `std::sort` that meets the contract: insertion sort. -/
def insertionStdSort (comp : File → File → Bool) (v : List File) : List File :=
  v.insertionSort (fun a b => comp b a = false)

/-! ## Sessions: sequences of catalog operations -/

/-- The three operations that change the catalog. -/
inductive Op where
  | add (file : File)
  | archive (name : String)
  | delete (name : String) (confirm : Char)
deriving DecidableEq, Repr

/-- The catalog after one operation. -/
def step (m : FileManager) : Op → FileManager
  | .add file => addFile m file
  | .archive name => (moveToArchive m name).1
  | .delete name confirm => (deleteFile m name confirm).1

/-- The catalog after a sequence of operations, first operation first. -/
def run (m : FileManager) (ops : List Op) : FileManager :=
  ops.foldl step m

/-- The object freed by the statement `delete *it` of `deleteFile`, if that
statement is reached. -/
def freedBy (m : FileManager) (name : String) (confirm : Char) : Option File :=
  let it := find_if m.files (fun f => f.getName == name)
  if h : it < m.files.length then
    if confirm == 'y' || confirm == 'Y' then some (m.files.get ⟨it, h⟩) else none
  else none

/-- The records that have been added and not deleted, after one more operation:
`addFile` adds its argument, `deleteFile` removes the object it frees. -/
def stepOwned (m : FileManager) (owned : List File) : Op → List File
  | .add file => owned ++ [file]
  | .archive _ => owned
  | .delete name confirm =>
    match freedBy m name confirm with
    | some r => owned.filter (fun f => decide (f ≠ r))
    | none => owned

/-- The records that have been added and not deleted after a sequence of
operations begun in catalog `m` with the records `owned`. -/
def runOwned (m : FileManager) (owned : List File) : List Op → List File
  | [] => owned
  | op :: ops => runOwned (step m op) (stepOwned m owned op) ops

/-- The precondition put on an operation: an `add` adds a record that is in
neither vector of the catalog. -/
def Op.Fresh (m : FileManager) : Op → Prop
  | .add file => file ∉ m.files ∧ file ∉ m.archive
  | _ => True

/-- Every `add` of the sequence adds a record that is, at that moment, in neither
vector of the catalog. -/
def AddsFresh (m : FileManager) : List Op → Prop
  | [] => True
  | op :: ops =>
    Op.Fresh m op ∧ AddsFresh (step m op) ops

instance (m : FileManager) (op : Op) : Decidable (Op.Fresh m op) := by
  cases op <;> unfold Op.Fresh <;> infer_instance

/-- Whether a sequence of operations satisfies `AddsFresh` can be computed. -/
def AddsFresh.decidable : (m : FileManager) → (ops : List Op) → Decidable (AddsFresh m ops)
  | _, [] => isTrue trivial
  | m, op :: ops =>
    have := AddsFresh.decidable (step m op) ops
    inferInstanceAs (Decidable (Op.Fresh m op ∧ AddsFresh (step m op) ops))

instance (m : FileManager) (ops : List Op) : Decidable (AddsFresh m ops) :=
  AddsFresh.decidable m ops

/-- The empty catalog, as at the construction of a `FileManager`. -/
def emptyManager : FileManager := { files := [], archive := [] }

/-- The operation archives, or deletes with confirmation, under the name `name`. -/
def Op.removes (name : String) : Op → Bool
  | .add _ => false
  | .archive n => n == name
  | .delete n confirm => n == name && (confirm == 'y' || confirm == 'Y')

/-! ## The search criteria in the words of the specification -/

/-- The five type variants of the specification, each with its name. -/
def variantNames : List (FileClass × String) :=
  [(FileClass.TextDocument, "TextDocument"), (FileClass.PDFDocument, "PDFDocument"),
   (FileClass.ImageFile, "ImageFile"), (FileClass.VideoFile, "VideoFile"),
   (FileClass.AudioFile, "AudioFile")]

/-- The conjunction of optional predicates a record must pass, as the
specification of `search` states it: the type is unspecified (empty) or is the
name of the record's variant, the tag is unspecified or is one of the record's tags, the size lies
in `[minSize, maxSize]`, and each date is unspecified or equal to the record's. -/
def MatchesCriteria (f : File) (type tag : String) (minSize maxSize : Nat)
    (creationDate modificationDate : String) : Prop :=
  (type = "" ∨ (f.cls, type) ∈ variantNames) ∧
  (tag = "" ∨ tag ∈ f.tags) ∧
  (minSize ≤ f.size ∧ f.size ≤ maxSize) ∧
  (creationDate = "" ∨ f.creationDate = creationDate) ∧
  (modificationDate = "" ∨ f.modificationDate = modificationDate)

instance (f : File) (type tag : String) (minSize maxSize : Nat)
    (creationDate modificationDate : String) :
    Decidable (MatchesCriteria f type tag minSize maxSize creationDate modificationDate) := by
  unfold MatchesCriteria
  infer_instance

/-- The image of the sample catalog, `Image.jpg` of 1500 KB. -/
def sampleImage : File :=
  ⟨2, .ImageFile, "Image.jpg", "C:/Pictures", "15.11.2022", "", 1500, ["vacation", "family"]⟩

/-- The PDF document of the sample catalog, `Report.pdf` of 200 KB. -/
def samplePdf : File :=
  ⟨1, .PDFDocument, "Report.pdf", "C:/Documents", "10.05.2023", "", 200, ["work", "project"]⟩

/-! ## Signals -/

/-- The output signals `NotFound` for `name`: it holds the line
"Файл name не найден.". -/
def SignalsNotFound (out : List Message) (name : String) : Prop :=
  Message.notFound name ∈ out

instance (out : List Message) (name : String) : Decidable (SignalsNotFound out name) := by
  unfold SignalsNotFound
  infer_instance

/-- Two distinct records with the same name. -/
def twinFirst : File :=
  ⟨10, .TextDocument, "a.txt", "C:/One", "01.01.2021", "", 1, []⟩

/-- The second of two distinct records with the same name. -/
def twinSecond : File :=
  ⟨11, .TextDocument, "a.txt", "C:/Two", "02.02.2022", "", 2, []⟩

/-! ## The membership invariant -/

/-- The catalog `m` and the records added and not deleted agree: no record occurs
twice in the two vectors taken together, and the records of the two vectors are
the records added and not deleted. -/
def Consistent (m : FileManager) (owned : List File) : Prop :=
  (m.files ++ m.archive).Nodup ∧ ∀ r, r ∈ owned ↔ (r ∈ m.files ∨ r ∈ m.archive)

/-- A session from the empty catalog: two adds, an archive, a confirmed delete, a
second add of the deleted record and an archive of a missing name. -/
def sampleSession : List Op :=
  [Op.add samplePdf, Op.add sampleImage, Op.archive "Report.pdf",
   Op.delete "Image.jpg" 'y', Op.add sampleImage, Op.archive "Missing.txt"]

/-! ## The report -/

/-- The four values `generateReport` prints: the number of files, the total size,
the average size and the last modification date. -/
structure Report where
  totalFiles : Nat
  totalSize : Nat
  averageSize : Nat
  lastModificationDate : String
deriving DecidableEq, Repr

/-- One turn of the loop of `generateReport` on the pair of locals
`(totalSize, lastModificationDate)`; `totalSize` is a `size_t`, so `+=` wraps
at `SIZE_MAX + 1`. -/
def reportStep (acc : Nat × String) (file : File) : Nat × String :=
  ((acc.1 + file.getSize) % (SIZE_MAX + 1),
   if file.getModificationDate > acc.2 then file.getModificationDate else acc.2)

/-- The method `generateReport`, returning what it prints. -/
def generateReport (files : List File) : Report :=
  let totalFiles := files.length
  let acc := files.foldl reportStep (0, "")
  { totalFiles := totalFiles,
    totalSize := acc.1,
    averageSize := if totalFiles > 0 then acc.1 / totalFiles else 0,
    lastModificationDate := acc.2 }

/-- A record of half the range of `size_t`, in kilobytes. -/
def hugeFirst : File :=
  ⟨20, .VideoFile, "a.mp4", "C:/", "01.01.2021", "", 2 ^ 63, []⟩

/-- A second record of half the range of `size_t`. -/
def hugeSecond : File :=
  ⟨21, .VideoFile, "b.mp4", "C:/", "01.01.2021", "", 2 ^ 63, []⟩

/-! ## The `std::sort` of the GNU C++ library

The algorithm of `std::sort` in libstdc++ (`bits/stl_algo.h`): an introsort, that
is quicksort with a median-of-three pivot down to ranges of 16 elements, followed
by one insertion sort. Iterators are positions in the vector. The routines keep the
names they have in the library, without the leading underscores. -/

/-- The call `std::iter_swap(i, j)`. -/
def iter_swap (v : List File) (i j : Nat) : List File :=
  match v.get? i, v.get? j with
  | some a, some b => (v.set i b).set j a
  | _, _ => v

/-- The comparison `comp(*i, *j)` of the elements at two positions; a position
outside the vector, which the library never reads, compares as false. -/
def compAt (comp : File → File → Bool) (v : List File) (i j : Nat) : Bool :=
  match v.get? i, v.get? j with
  | some a, some b => comp a b
  | _, _ => false

/-- The routine `__move_median_to_first(result, a, b, c, comp)`. -/
def move_median_to_first (comp : File → File → Bool) (v : List File)
    (result a b c : Nat) : List File :=
  if compAt comp v a b then
    if compAt comp v b c then iter_swap v result b
    else if compAt comp v a c then iter_swap v result c
    else iter_swap v result a
  else if compAt comp v a c then iter_swap v result a
  else if compAt comp v b c then iter_swap v result c
  else iter_swap v result b

/-- The loop `while (comp(first, pivot)) ++first;` of `__unguarded_partition`, for
at most `fuel` steps: the final `first`. -/
def scanUp (comp : File → File → Bool) (v : List File) (pivot : Nat) : Nat → Nat → Nat
  | 0, first => first
  | fuel + 1, first =>
    if compAt comp v first pivot then scanUp comp v pivot fuel (first + 1) else first

/-- The loop `while (comp(pivot, last)) --last;` of `__unguarded_partition`, for at
most `fuel` steps: the final `last`. -/
def scanDown (comp : File → File → Bool) (v : List File) (pivot : Nat) : Nat → Nat → Nat
  | 0, last => last
  | fuel + 1, last =>
    if compAt comp v pivot last then scanDown comp v pivot fuel (last - 1) else last

/-- The routine `__unguarded_partition(first, last, pivot, comp)`, for at most `fuel`
turns of its outer loop: the vector afterwards and the position returned. -/
def unguarded_partition (comp : File → File → Bool) (pivot : Nat) :
    Nat → List File → Nat → Nat → List File × Nat
  | 0, v, first, _ => (v, first)
  | fuel + 1, v, first, last =>
    let first1 := scanUp comp v pivot (v.length + 1) first
    let last1 := scanDown comp v pivot (v.length + 1) (last - 1)
    if first1 < last1 then
      unguarded_partition comp pivot fuel (iter_swap v first1 last1) (first1 + 1) last1
    else (v, first1)

/-- The routine `__unguarded_partition_pivot(first, last, comp)`. -/
def unguarded_partition_pivot (comp : File → File → Bool) (v : List File)
    (first last : Nat) : List File × Nat :=
  let mid := first + (last - first) / 2
  let v1 := move_median_to_first comp v first (first + 1) mid (last - 1)
  unguarded_partition comp first (v1.length + 1) v1 (first + 1) last

/-- The routine `__introsort_loop(first, last, depth_limit, comp)`, for at most `fuel`
nested turns. The result is `none` when the depth limit reaches 0, where the
library falls back on heap sort, which is left out of the model, and when the fuel
runs out. -/
def introsort_loop (comp : File → File → Bool) :
    Nat → List File → Nat → Nat → Nat → Option (List File)
  | 0, _, _, _, _ => none
  | fuel + 1, v, first, last, depth_limit =>
    if last - first > 16 then
      if depth_limit = 0 then none
      else
        let r := unguarded_partition_pivot comp v first last
        match introsort_loop comp fuel r.1 r.2 last (depth_limit - 1) with
        | none => none
        | some v2 => introsort_loop comp fuel v2 first r.2 (depth_limit - 1)
    else some v

/-- The routine `__unguarded_linear_insert(last, comp)` with `val` the element moved
out of position `last`, for at most `fuel` turns of its loop. -/
def unguarded_linear_insert (comp : File → File → Bool) :
    Nat → List File → File → Nat → List File
  | 0, v, val, last => v.set last val
  | fuel + 1, v, val, last =>
    match (if last = 0 then none else v.get? (last - 1)) with
    | some next =>
      if comp val next then
        unguarded_linear_insert comp fuel (v.set last next) val (last - 1)
      else v.set last val
    | none => v.set last val

/-- The steps `move_backward(first, i, i + 1); *first = val;` of `__insertion_sort`,
with `val` the element that was at position `i`. -/
def move_backward_put (v : List File) (first i : Nat) (val : File) : List File :=
  v.take first ++ val :: ((v.drop first).take (i - first) ++ v.drop (i + 1))

/-- The loop of `__insertion_sort(first, last, comp)` from position `i` on, for `k`
more positions. -/
def insertion_sort_loop (comp : File → File → Bool) (first : Nat) :
    Nat → Nat → List File → List File
  | 0, _, v => v
  | k + 1, i, v =>
    match v.get? i, v.get? first with
    | some val, some head =>
      if comp val head then
        insertion_sort_loop comp first k (i + 1) (move_backward_put v first i val)
      else
        insertion_sort_loop comp first k (i + 1)
          (unguarded_linear_insert comp v.length v val i)
    | _, _ => v

/-- The routine `__insertion_sort(first, last, comp)`. -/
def insertion_sort (comp : File → File → Bool) (v : List File) (first last : Nat) :
    List File :=
  if first = last then v else insertion_sort_loop comp first (last - (first + 1)) (first + 1) v

/-- The loop of `__unguarded_insertion_sort(first, last, comp)` from position `i` on,
for `k` more positions. -/
def unguarded_insertion_sort (comp : File → File → Bool) :
    Nat → Nat → List File → List File
  | 0, _, v => v
  | k + 1, i, v =>
    match v.get? i with
    | some val =>
      unguarded_insertion_sort comp k (i + 1) (unguarded_linear_insert comp v.length v val i)
    | none => v

/-- The routine `__final_insertion_sort(first, last, comp)`. -/
def final_insertion_sort (comp : File → File → Bool) (v : List File) (first last : Nat) :
    List File :=
  if last - first > 16 then
    unguarded_insertion_sort comp (last - (first + 16)) (first + 16)
      (insertion_sort comp v first (first + 16))
  else insertion_sort comp v first last

/-- The function `std::__lg`: the position of the highest bit set, computed by
halving at most `fuel` times. -/
def lgAux : Nat → Nat → Nat
  | 0, _ => 0
  | fuel + 1, n => if n ≥ 2 then lgAux fuel (n / 2) + 1 else 0

/-- The routine `std::__sort(first, last, comp)` on the whole vector, which is what
`std::sort` calls. -/
def gnuSort (comp : File → File → Bool) (v : List File) : Option (List File) :=
  if v.length = 0 then some v
  else
    match introsort_loop comp (v.length + 1) v 0 v.length (lgAux v.length v.length * 2) with
    | none => none
    | some v1 => some (final_insertion_sort comp v1 0 v1.length)

/-- The sort of the GNU library as an argument for `sortFiles`: the vector is left
as it was where the model of the library stops. -/
def gnuStdSort (comp : File → File → Bool) (v : List File) : List File :=
  (gnuSort comp v).getD v

/-- Seventeen distinct records, all named `a.txt`; the address of each is its
position in the vector. -/
def namesakes : List File :=
  (List.range 17).map (fun i => ⟨i, .TextDocument, "a.txt", "C:/", "01.01.2021", "", i, []⟩)

/-! ## Sorting by name in the words of the specification -/

/-- A stable ascending sort by name: insertion sort, which puts a record before the
first record of the sorted rest whose name is not smaller. -/
def stableSortByName (files : List File) : List File :=
  files.insertionSort (fun a b => a.name ≤ b.name)

/-! ## Bulk import from a text file -/

/-- The ways the processing of a line leaves the loop of `addFilesFromTextFile`
without reaching its end: the two exceptions `std::stoi` throws (nothing catches
them), and the tag loop not finishing. -/
inductive ImportError where
  | invalidArgument
  | outOfRange
  | nonTermination
deriving DecidableEq, Repr

/-- The largest `int`. -/
def INT_MAX : Int := 2 ^ 31 - 1

/-- The smallest `int`. -/
def INT_MIN : Int := -(2 ^ 31)

/-- The call `std::getline(ss, field, delim)` on a stream whose unread characters
are `ss`: the field read, and the characters left unread (the delimiter is
consumed). On an exhausted stream the field is empty. -/
def getline (ss : List Char) (delim : Char) : String × List Char :=
  (String.mk (ss.takeWhile (fun c => c != delim)),
   (ss.dropWhile (fun c => c != delim)).drop 1)

/-- The call `s.find(needle)` on character sequences: the first position at which
`needle` occurs in `s`, or `none` for `npos`. -/
def findStr (needle : List Char) : List Char → Option Nat
  | [] => if needle.isPrefixOf [] then some 0 else none
  | c :: t =>
    if needle.isPrefixOf (c :: t) then some 0 else (findStr needle t).map (fun k => k + 1)

/-- The call `s.find(needle)` of `std::string`. -/
def strFind (s needle : String) : Option Nat :=
  findStr needle.data s.data

/-- The call `s.find(c, start)`: the first position from `start` on that holds `c`,
or `none` for `npos`. -/
def findChar (s : List Char) (c : Char) (start : Nat) : Option Nat :=
  let k := (s.drop start).findIdx (fun x => x == c)
  if start + k < s.length then some (start + k) else none

/-- The call `s.substr(pos, n)`. -/
def substr (s : List Char) (pos n : Nat) : List Char :=
  (s.drop pos).take n

/-- The test `isspace` of the C locale. -/
def isspace (c : Char) : Bool :=
  c == ' ' || c == '\t' || c == '\n' || c == '\x0b' || c == '\x0c' || c == '\r'

/-- The value of a run of decimal digits, most significant first. -/
def digitsValue (ds : List Char) : Nat :=
  ds.foldl (fun acc c => 10 * acc + (c.toNat - 48)) 0

/-- The function `std::stoi` in base 10: leading white space is skipped, an
optional sign is read, then the longest run of digits. It throws
`invalid_argument` when there is no digit and `out_of_range` when the value is
not an `int`. -/
def stoi (s : List Char) : Except ImportError Int :=
  let s1 := s.dropWhile isspace
  let negative := s1.head? == some '-'
  let s2 := if s1.head? == some '-' || s1.head? == some '+' then s1.drop 1 else s1
  let ds := s2.takeWhile Char.isDigit
  if ds.isEmpty then Except.error ImportError.invalidArgument
  else
    let v : Int := if negative then -(digitsValue ds : Int) else (digitsValue ds : Int)
    if v < INT_MIN ∨ v > INT_MAX then Except.error ImportError.outOfRange
    else Except.ok v

/-- The result of an `int` operation whose mathematical value is `v`, as the
compiled program computes it: `v` reduced to the 32-bit two's complement range. The
standard leaves the overflowing case undefined; the program throws nothing there
and goes on with this value. -/
def wrapInt (v : Int) : Int :=
  (v - INT_MIN) % 2 ^ 32 + INT_MIN

/-- The conversion of an `int` to `size_t`: reduction modulo `SIZE_MAX + 1`. -/
def toSizeT (v : Int) : Nat :=
  (v % ((SIZE_MAX : Int) + 1)).toNat

/-- The size parsing of `addFilesFromTextFile`. The result `none` stands for the
local `size` left unassigned, when the field holds neither `KB` nor `MB`. -/
def parseSize (sizeStr : String) : Except ImportError (Option Nat) :=
  match strFind sizeStr "KB" with
  | some pos =>
    match stoi (substr sizeStr.data 0 pos) with
    | Except.ok v => Except.ok (some (toSizeT v))
    | Except.error e => Except.error e
  | none =>
    match strFind sizeStr "MB" with
    | some pos =>
      match stoi (substr sizeStr.data 0 pos) with
      | Except.ok v => Except.ok (some (toSizeT (wrapInt (v * 1024))))
      | Except.error e => Except.error e
    | none => Except.ok none

/-- The tag loop of `addFilesFromTextFile`, run for at most `fuel` evaluations of
its condition: `start` and `tags` are the locals, `none` means the loop has not
finished within `fuel`. -/
def tagLoop : Nat → List Char → Nat → List String → Option (List String)
  | 0, _, _, _ => none
  | fuel + 1, tagsStr, start, tags =>
    match findChar tagsStr ',' start with
    | some e =>
      tagLoop fuel tagsStr (e + 1) (tags ++ [String.mk (substr tagsStr start (e - start))])
    | none => some (tags ++ [String.mk (tagsStr.drop start)])

/-- The tag parsing of `addFilesFromTextFile`, with one evaluation of the loop
condition allotted per character and one more. -/
def parseTags (tagsStr : String) : Option (List String) :=
  tagLoop (tagsStr.data.length + 1) tagsStr.data 0 []

/-- The chain of tests on `name` that picks the class of the new object; `none`
when `newFile` stays null. -/
def classify (name : String) : Option FileClass :=
  if (strFind name ".pdf").isSome then some FileClass.PDFDocument
  else if (strFind name ".jpg").isSome then some FileClass.ImageFile
  else if (strFind name ".txt").isSome then some FileClass.TextDocument
  else if (strFind name ".mp4").isSome then some FileClass.VideoFile
  else if (strFind name ".mp3").isSome then some FileClass.AudioFile
  else none

/-- The five locals `name`, `path`, `creationDate`, `sizeStr` and `tagsStr`. -/
structure Fields where
  name : String
  path : String
  creationDate : String
  sizeStr : String
  tagsStr : String
deriving DecidableEq, Repr

/-- The five `getline` calls on the `stringstream` made of the line: four with the
delimiter `,` and a last one with the default delimiter, the newline. -/
def readFields (line : String) : Fields :=
  let f1 := getline line.data ','
  let f2 := getline f1.2 ','
  let f3 := getline f2.2 ','
  let f4 := getline f3.2 ','
  let f5 := getline f4.2 '\n'
  { name := f1.1, path := f2.1, creationDate := f3.1, sizeStr := f4.1, tagsStr := f5.1 }

/-- The body of the loop of `addFilesFromTextFile` for one line, up to the test
`if (newFile)`: the object created, if any. `addr` is the address `new` returns
when it is called, and `sizeInit` is what the local `size`, declared without an
initial value, holds before the size parsing: the record gets it when the size
field has neither `KB` nor `MB`. -/
def parseLine (addr sizeInit : Nat) (line : String) : Except ImportError (Option File) :=
  let f := readFields line
  match parseSize f.sizeStr with
  | Except.error e => Except.error e
  | Except.ok size =>
    match parseTags f.tagsStr with
    | none => Except.error ImportError.nonTermination
    | some tags =>
      match classify f.name with
      | none => Except.ok none
      | some cls =>
        Except.ok (some ⟨addr, cls, f.name, f.path, f.creationDate, "",
          size.getD sizeInit, tags⟩)

/-- The loop of `addFilesFromTextFile` over the lines `getline(file, line)` delivers,
from line number `i` on; `newAddr i` is the address `new` returns while line `i` is
processed, and `sizeInit i` is what the local `size` holds when it is declared
there. -/
def importLines (newAddr sizeInit : Nat → Nat) :
    Nat → List String → FileManager → Except ImportError FileManager
  | _, [], m => Except.ok m
  | i, line :: rest, m =>
    match parseLine (newAddr i) (sizeInit i) line with
    | Except.error e => Except.error e
    | Except.ok none => importLines newAddr sizeInit (i + 1) rest m
    | Except.ok (some newFile) =>
      importLines newAddr sizeInit (i + 1) rest (addFile m newFile)

/-- The method `addFilesFromTextFile`, on the lines of the file. -/
def addFilesFromTextFile (newAddr sizeInit : Nat → Nat) (m : FileManager)
    (lines : List String) : Except ImportError FileManager :=
  importLines newAddr sizeInit 0 lines m

instance : DecidableEq (Except ImportError (Option File)) := fun a b =>
  match a, b with
  | Except.ok x, Except.ok y =>
    if h : x = y then isTrue (by rw [h]) else isFalse (fun e => h (Except.ok.inj e))
  | Except.error x, Except.error y =>
    if h : x = y then isTrue (by rw [h]) else isFalse (fun e => h (Except.error.inj e))
  | Except.ok _, Except.error _ => isFalse (fun e => by cases e)
  | Except.error _, Except.ok _ => isFalse (fun e => by cases e)

/-- The records the loop of `addFilesFromTextFile` creates for the lines from
number `i` on, in the order of the lines. -/
def importedRecords (newAddr sizeInit : Nat → Nat) : Nat → List String → List File
  | _, [] => []
  | i, line :: rest =>
    match parseLine (newAddr i) (sizeInit i) line with
    | Except.ok (some newFile) => newFile :: importedRecords newAddr sizeInit (i + 1) rest
    | _ => importedRecords newAddr sizeInit (i + 1) rest

/-! ## The import format in the words of the specification -/

/-- The characters `ds` are a decimal integer denoting `n`: a non-empty run of
digits whose value, by `Nat.ofDigits` on the digits read from the least
significant, is `n`. -/
def IsDecimal (ds : List Char) (n : Nat) : Prop :=
  ds ≠ [] ∧ (∀ c ∈ ds, c.isDigit = true) ∧
    Nat.ofDigits 10 (ds.reverse.map (fun c => c.toNat - 48)) = n

/-- The string `s` contains the marker `marker` somewhere. -/
def Contains (s marker : String) : Prop :=
  marker.data <:+: s.data

/-- The name contains one of the five extension markers. -/
def Recognised (name : String) : Prop :=
  Contains name ".pdf" ∨ Contains name ".jpg" ∨ Contains name ".txt" ∨
    Contains name ".mp4" ∨ Contains name ".mp3"

/-- The pieces of a line of the import format
`name,path,creationDate,sizeWithUnit,tagsTail`: the three leading fields, the
digits and the unit of the size, and the rest of the line after the fourth comma. -/
structure LineParts where
  name : List Char
  path : List Char
  date : List Char
  digits : List Char
  unit : List Char
  tail : List Char

/-- The line made of the pieces. -/
def LineParts.text (p : LineParts) : List Char :=
  p.name ++ ',' :: (p.path ++ ',' :: (p.date ++ ',' :: ((p.digits ++ p.unit) ++ ',' :: p.tail)))

/-- The pieces are those of a line of the import format whose size is the integer
`n`: the three leading fields hold no comma, the digits are a decimal integer
denoting `n`, the unit is `KB` or `MB`, and the rest, being part of a line, holds
no newline. -/
def LineParts.WellFormed (p : LineParts) (n : Nat) : Prop :=
  ',' ∉ p.name ∧ ',' ∉ p.path ∧ ',' ∉ p.date ∧ IsDecimal p.digits n ∧
    (p.unit = ['K', 'B'] ∨ p.unit = ['M', 'B']) ∧ '\n' ∉ p.tail

/-- The line is a line of the import format whose size is the integer `n`. -/
def SizedLine (line : String) (n : Nat) : Prop :=
  ∃ p : LineParts, p.WellFormed n ∧ line.data = p.text

/-- A well-formed import line: a line of the import format, whatever its integer. -/
def WellFormedLine (line : String) : Prop :=
  ∃ n, SizedLine line n

/-- The record the specification gives for a line of the import format with the
pieces `p` and the integer `n`: name, path and creation date are the three leading
fields, the modification date is empty, the tags are the rest of the line split at
every comma, the variant is the one the name selects, and the size in kilobytes is
`n` for the unit `KB` and `n × 1024` for the unit `MB` (this last when the product
is at most `INT_MAX`; nothing is said of the size otherwise). -/
def RecordOf (p : LineParts) (n : Nat) (r : File) : Prop :=
  r.name = String.mk p.name ∧ r.path = String.mk p.path ∧
    r.creationDate = String.mk p.date ∧ r.modificationDate = "" ∧
    r.tags = (p.tail.splitOn ',').map String.mk ∧
    classify (String.mk p.name) = some r.cls ∧
    (p.unit = ['K', 'B'] → r.size = n) ∧
    (p.unit = ['M', 'B'] → (n : Int) * 1024 ≤ INT_MAX → r.size = n * 1024)

/-- The first field of a line: the characters before its first comma. -/
def nameField (line : String) : String :=
  String.mk (line.data.takeWhile (fun c => c != ','))

/-- Two records with modification dates. -/
def datedFiles : List File :=
  [⟨30, .TextDocument, "a.txt", "C:/", "01.01.2021", "02.01.2024", 1, []⟩,
   ⟨31, .TextDocument, "b.txt", "C:/", "01.01.2021", "15.03.2023", 2, []⟩]

instance (s marker : String) : Decidable (Contains s marker) := by
  unfold Contains
  infer_instance

instance (name : String) : Decidable (Recognised name) := by
  unfold Recognised
  infer_instance

/-! ## Auxiliary facts about the library algorithms -/

theorem find_if_append_cons (pre post : List File) (r : File) (p : File → Bool)
    (hpre : ∀ f ∈ pre, p f = false) (hr : p r = true) :
    find_if (pre ++ r :: post) p = pre.length := by
  induction pre with
  | nil => simp [find_if, List.findIdx_cons, hr]
  | cons a pre ih =>
    have ha : p a = false := hpre a (List.mem_cons_self a pre)
    have ih2 := ih (fun f hf => hpre f (List.mem_cons_of_mem a hf))
    simp only [find_if] at ih2
    simp [find_if, List.findIdx_cons, ha, ih2]

theorem find_if_all_false (v : List File) (p : File → Bool)
    (h : ∀ f ∈ v, p f = false) : find_if v p = v.length := by
  induction v with
  | nil => simp [find_if]
  | cons a v ih =>
    have ha : p a = false := h a (List.mem_cons_self a v)
    have ih2 := ih (fun f hf => h f (List.mem_cons_of_mem a hf))
    simp only [find_if] at ih2
    simp [find_if, List.findIdx_cons, ha, ih2]

/-- A vector with an element satisfying `p` splits at the first such element. -/
theorem exists_first_split (v : List File) (p : File → Bool)
    (h : ∃ f ∈ v, p f = true) :
    ∃ pre r post, v = pre ++ r :: post ∧ p r = true ∧ ∀ f ∈ pre, p f = false := by
  induction v with
  | nil => simp at h
  | cons a v ih =>
    by_cases ha : p a = true
    · exact ⟨[], a, v, rfl, ha, by simp⟩
    · have ha2 : p a = false := by simpa using ha
      have hv : ∃ f ∈ v, p f = true := by
        obtain ⟨f, hf, hpf⟩ := h
        rcases List.mem_cons.mp hf with rfl | hf2
        · exact absurd hpf ha
        · exact ⟨f, hf2, hpf⟩
      obtain ⟨pre, r, post, hsplit, hr, hpre⟩ := ih hv
      refine ⟨a :: pre, r, post, by simp [hsplit], hr, ?_⟩
      intro f hf
      rcases List.mem_cons.mp hf with rfl | hf2
      · exact ha2
      · exact hpre f hf2

theorem getElem_append_cons_length (pre post : List File) (r : File)
    (h : pre.length < (pre ++ r :: post).length) :
    (pre ++ r :: post)[pre.length] = r := by
  induction pre with
  | nil => rfl
  | cons a pre ih => simpa using ih (by simp)

theorem eraseIdx_append_cons_length (pre post : List File) (r : File) :
    (pre ++ r :: post).eraseIdx pre.length = pre ++ post := by
  induction pre with
  | nil => simp
  | cons a pre ih => simp [ih]

theorem nameTest_false_iff (f : File) (name : String) :
    (f.getName == name) = false ↔ f.name ≠ name := by
  simp [File.getName]

theorem nameTest_true_iff (f : File) (name : String) :
    (f.getName == name) = true ↔ f.name = name := by
  simp [File.getName]

/-! ## The operations, by cases on the first live record with the name -/

theorem getFileByName_first (files pre post archive : List File) (r : File) (name : String)
    (hsplit : files = pre ++ r :: post) (hr : r.name = name)
    (hpre : ∀ f ∈ pre, f.name ≠ name) :
    getFileByName ⟨files, archive⟩ name = some r := by
  subst hsplit
  have hit : find_if (pre ++ r :: post) (fun f => f.getName == name) = pre.length :=
    find_if_append_cons pre post r _
      (fun f hf => (nameTest_false_iff f name).mpr (hpre f hf))
      ((nameTest_true_iff r name).mpr hr)
  simp [getFileByName, hit, getElem_append_cons_length]

theorem getFileByName_absent (m : FileManager) (name : String)
    (h : ∀ f ∈ m.files, f.name ≠ name) : getFileByName m name = none := by
  have hit : find_if m.files (fun f => f.getName == name) = m.files.length :=
    find_if_all_false m.files _ (fun f hf => (nameTest_false_iff f name).mpr (h f hf))
  simp [getFileByName, hit]

theorem moveToArchive_first (files pre post archive : List File) (r : File) (name : String)
    (hsplit : files = pre ++ r :: post) (hr : r.name = name)
    (hpre : ∀ f ∈ pre, f.name ≠ name) :
    moveToArchive ⟨files, archive⟩ name
      = (⟨pre ++ post, archive ++ [r]⟩, [Message.movedToArchive name]) := by
  subst hsplit
  have hit : find_if (pre ++ r :: post) (fun f => f.getName == name) = pre.length :=
    find_if_append_cons pre post r _
      (fun f hf => (nameTest_false_iff f name).mpr (hpre f hf))
      ((nameTest_true_iff r name).mpr hr)
  simp [moveToArchive, hit, eraseIdx_append_cons_length, getElem_append_cons_length]

theorem moveToArchive_absent (m : FileManager) (name : String)
    (h : ∀ f ∈ m.files, f.name ≠ name) :
    moveToArchive m name = (m, [Message.notFound name]) := by
  have hit : find_if m.files (fun f => f.getName == name) = m.files.length :=
    find_if_all_false m.files _ (fun f hf => (nameTest_false_iff f name).mpr (h f hf))
  simp [moveToArchive, hit]

theorem deleteFile_first (files pre post archive : List File) (r : File) (name : String)
    (confirm : Char) (hsplit : files = pre ++ r :: post) (hr : r.name = name)
    (hpre : ∀ f ∈ pre, f.name ≠ name) :
    deleteFile ⟨files, archive⟩ name confirm
      = if confirm = 'y' ∨ confirm = 'Y' then
          (⟨pre ++ post, archive⟩, [Message.confirmPrompt name, Message.deleted name])
        else (⟨files, archive⟩, [Message.confirmPrompt name]) := by
  subst hsplit
  have hit : find_if (pre ++ r :: post) (fun f => f.getName == name) = pre.length :=
    find_if_append_cons pre post r _
      (fun f hf => (nameTest_false_iff f name).mpr (hpre f hf))
      ((nameTest_true_iff r name).mpr hr)
  simp [deleteFile, hit, eraseIdx_append_cons_length]

theorem deleteFile_absent (m : FileManager) (name : String) (confirm : Char)
    (h : ∀ f ∈ m.files, f.name ≠ name) :
    deleteFile m name confirm = (m, [Message.notFound name]) := by
  have hit : find_if m.files (fun f => f.getName == name) = m.files.length :=
    find_if_all_false m.files _ (fun f hf => (nameTest_false_iff f name).mpr (h f hf))
  simp [deleteFile, hit]

/-- Either no live record has the name, or the live vector splits at the first one. -/
theorem name_cases (files : List File) (name : String) :
    (∀ f ∈ files, f.name ≠ name) ∨
    ∃ pre r post, files = pre ++ r :: post ∧ r.name = name ∧ ∀ f ∈ pre, f.name ≠ name := by
  by_cases h : ∃ f ∈ files, (f.getName == name) = true
  · right
    obtain ⟨pre, r, post, hs, hr, hpre⟩ := exists_first_split files _ h
    exact ⟨pre, r, post, hs, (nameTest_true_iff r name).mp hr,
      fun f hf => (nameTest_false_iff f name).mp (hpre f hf)⟩
  · left
    intro f hf hname
    exact h ⟨f, hf, (nameTest_true_iff f name).mpr hname⟩

/-! ## Search -/

theorem foldl_push_eq_filter (p : File → Bool) (l acc : List File) :
    l.foldl (fun result file => if p file then result ++ [file] else result) acc
      = acc ++ l.filter p := by
  induction l generalizing acc with
  | nil => simp
  | cons a l ih =>
    by_cases ha : p a = true
    · simp [List.foldl_cons, ih, ha, List.filter_cons]
    · simp [List.foldl_cons, ih, ha, List.filter_cons]

theorem hasTag_iff (f : File) (tag : String) : f.hasTag tag = true ↔ tag ∈ f.tags := by
  unfold File.hasTag find
  constructor
  · intro h
    have hne : List.findIdx (fun t => t == tag) f.tags ≠ f.tags.length := by simpa using h
    have hlt : List.findIdx (fun t => t == tag) f.tags < f.tags.length :=
      lt_of_le_of_ne (List.findIdx_le_length _) hne
    obtain ⟨x, hx, hxt⟩ := List.findIdx_lt_length.mp hlt
    have : x = tag := by simpa using hxt
    exact this ▸ hx
  · intro h
    have hlt : List.findIdx (fun t => t == tag) f.tags < f.tags.length :=
      List.findIdx_lt_length.mpr ⟨tag, h, by simp⟩
    have hne := Nat.ne_of_lt hlt
    simpa using hne

theorem variantNames_iff (f : File) (type : String) :
    (f.cls, type) ∈ variantNames ↔ f.getType = type := by
  cases hc : f.cls <;> simp [variantNames, File.getType, hc, eq_comm]

theorem searchCond_iff (f : File) (type tag : String) (minSize maxSize : Nat)
    (creationDate modificationDate : String) :
    searchCond f type tag minSize maxSize creationDate modificationDate = true ↔
      MatchesCriteria f type tag minSize maxSize creationDate modificationDate := by
  have ht := hasTag_iff f tag
  have hv := variantNames_iff f type
  simp only [searchCond, MatchesCriteria, empty, Bool.and_eq_true, Bool.or_eq_true,
    beq_iff_eq, decide_eq_true_eq, ht, hv, File.getSize, File.getCreationDate,
    File.getModificationDate, ge_iff_le]
  tauto

theorem search_eq_filter (m : FileManager) (type tag : String) (minSize maxSize : Nat)
    (creationDate modificationDate : String) :
    search m type tag minSize maxSize creationDate modificationDate
      = m.files.filter (fun f =>
          decide (MatchesCriteria f type tag minSize maxSize creationDate modificationDate)) := by
  unfold search
  rw [foldl_push_eq_filter
    (fun file => searchCond file type tag minSize maxSize creationDate modificationDate)]
  simp only [List.nil_append]
  apply List.filter_congr
  intro f _
  by_cases h : MatchesCriteria f type tag minSize maxSize creationDate modificationDate
  · simp [h, (searchCond_iff f type tag minSize maxSize creationDate modificationDate).mpr h]
  · have : searchCond f type tag minSize maxSize creationDate modificationDate = false := by
      cases hc : searchCond f type tag minSize maxSize creationDate modificationDate
      · rfl
      · exact absurd ((searchCond_iff _ _ _ _ _ _ _).mp hc) h
    simp [h, this]

/-- A search by type alone keeps the records of one variant. -/
theorem matches_type_only (f : File) (cls : FileClass) (name : String)
    (hname : (cls, name) ∈ variantNames) (hsz : f.size ≤ SIZE_MAX) :
    MatchesCriteria f name "" 0 SIZE_MAX "" "" ↔ f.cls = cls := by
  cases cls <;> simp [variantNames] at hname <;> subst hname <;>
    cases hc : f.cls <;> simp [MatchesCriteria, variantNames, hc, hsz]

/-- C1: `search` returns exactly the live records, in insertion order, that pass
every criterion (type unspecified or the name of the record's variant, tag
unspecified or among the record's tags, size within `[minSize, maxSize]`, each date
unspecified or equal). With the default arguments it returns the whole live vector
(sizes being `size_t` values); with the name of a variant and the other arguments
at their defaults it returns the live records of that variant and no other; and
`search("ImageFile", "", 1000, 2000)` over a live vector made of an ImageFile of
size 1500 and a PDFDocument (of size 200, or of any size) returns only the
ImageFile. -/
theorem search_returns_matching_live_records (m : FileManager) (type tag : String)
    (minSize maxSize : Nat) (creationDate modificationDate : String) :
    search m type tag minSize maxSize creationDate modificationDate
        = m.files.filter (fun f =>
            decide (MatchesCriteria f type tag minSize maxSize creationDate modificationDate))
    ∧ ((∀ f ∈ m.files, f.size ≤ SIZE_MAX) → search m "" "" 0 SIZE_MAX "" "" = m.files)
    ∧ (∀ cls name, (cls, name) ∈ variantNames → (∀ f ∈ m.files, f.size ≤ SIZE_MAX) →
        search m name "" 0 SIZE_MAX "" "" = m.files.filter (fun f => decide (f.cls = cls)))
    ∧ (∀ img pdf : File, img.cls = FileClass.ImageFile → img.size = 1500 →
        pdf.cls = FileClass.PDFDocument →
        (m.files = [img, pdf] ∨ m.files = [pdf, img]) →
        search m "ImageFile" "" 1000 2000 "" "" = [img]) := by
  refine ⟨search_eq_filter m _ _ _ _ _ _, ?_, ?_, ?_⟩
  · intro hsz
    rw [search_eq_filter]
    apply List.filter_eq_self.mpr
    intro f hf
    simp [MatchesCriteria, hsz f hf]
  · intro cls name hname hsz
    rw [search_eq_filter]
    apply List.filter_congr
    intro f hf
    have := matches_type_only f cls name hname (hsz f hf)
    by_cases hc : f.cls = cls
    · simp [hc, this.mpr hc]
    · have hn : ¬ MatchesCriteria f name "" 0 SIZE_MAX "" "" := fun h => hc (this.mp h)
      simp [hc, hn]
  · intro img pdf hic his hpc hfiles
    rw [search_eq_filter]
    have himg : MatchesCriteria img "ImageFile" "" 1000 2000 "" "" := by
      simp [MatchesCriteria, variantNames, hic, his]
    have hpdf : ¬ MatchesCriteria pdf "ImageFile" "" 1000 2000 "" "" := by
      simp [MatchesCriteria, variantNames, hpc]
    rcases hfiles with h | h
    · simp [h, List.filter_cons, himg, hpdf]
    · simp [h, List.filter_cons, himg, hpdf]

/-- The statement of C1 at the two-record catalog holding `Report.pdf` (200 KB) and
`Image.jpg` (1500 KB), and, for the search by type alone, at the sample catalog:
`PDFDocument` finds `Report.pdf` and nothing else. -/
theorem search_returns_matching_live_records_witness :
    search ⟨[samplePdf, sampleImage], []⟩ "" "" 0 SIZE_MAX "" "" = [samplePdf, sampleImage]
    ∧ search ⟨[samplePdf, sampleImage], []⟩ "ImageFile" "" 1000 2000 "" "" = [sampleImage]
    ∧ search sampleManager "PDFDocument" "" 0 SIZE_MAX "" "" = [samplePdf] :=
  ⟨(search_returns_matching_live_records ⟨[samplePdf, sampleImage], []⟩ "" "" 0 0 "" "").2.1
      (by decide),
   (search_returns_matching_live_records ⟨[samplePdf, sampleImage], []⟩ "" "" 0 0 "" "").2.2.2
      sampleImage samplePdf rfl rfl rfl (Or.inr rfl),
   ((search_returns_matching_live_records sampleManager "" "" 0 0 "" "").2.2.1
      FileClass.PDFDocument "PDFDocument" (by decide) (by decide)).trans (by decide)⟩

/-! ## Archiving and deleting -/

/-- C2: when some live record has the name, `moveToArchive` takes the first such
record out of the live vector, keeps the other live records in their order, puts
that record at the end of the archive after the records already archived, and
keeps the total number of records. -/
theorem moveToArchive_moves_first_match (m : FileManager) (name : String)
    (h : ∃ f ∈ m.files, f.name = name) :
    ∃ pre r post, m.files = pre ++ r :: post ∧ r.name = name ∧
      (∀ f ∈ pre, f.name ≠ name) ∧
      (moveToArchive m name).1.files = pre ++ post ∧
      (moveToArchive m name).1.archive = m.archive ++ [r] ∧
      (moveToArchive m name).1.files.length + (moveToArchive m name).1.archive.length
        = m.files.length + m.archive.length := by
  obtain ⟨files, archive⟩ := m
  rcases name_cases files name with hnone | ⟨pre, r, post, hs, hr, hpre⟩
  · obtain ⟨f, hf, hfn⟩ := h
    exact absurd hfn (hnone f hf)
  · refine ⟨pre, r, post, hs, hr, hpre, ?_⟩
    rw [moveToArchive_first files pre post archive r name hs hr hpre]
    simp [hs]
    omega

/-- The statement of C2 at the sample catalog and the name `Notes.txt`. -/
theorem moveToArchive_moves_first_match_witness :
    ∃ pre r post, sampleManager.files = pre ++ r :: post ∧ r.name = "Notes.txt" ∧
      (∀ f ∈ pre, f.name ≠ "Notes.txt") ∧
      (moveToArchive sampleManager "Notes.txt").1.files = pre ++ post ∧
      (moveToArchive sampleManager "Notes.txt").1.archive = sampleManager.archive ++ [r] ∧
      (moveToArchive sampleManager "Notes.txt").1.files.length
          + (moveToArchive sampleManager "Notes.txt").1.archive.length
        = sampleManager.files.length + sampleManager.archive.length :=
  moveToArchive_moves_first_match sampleManager "Notes.txt" (by decide)

/-- C4: when some live record has the name and the answer read is `y` or `Y`,
`deleteFile` takes the first such record out of the live vector, keeps the other
live records in their order and leaves the archive as it was. -/
theorem deleteFile_confirmed_removes_first_match (m : FileManager) (name : String)
    (confirm : Char) (hc : confirm = 'y' ∨ confirm = 'Y')
    (h : ∃ f ∈ m.files, f.name = name) :
    ∃ pre r post, m.files = pre ++ r :: post ∧ r.name = name ∧
      (∀ f ∈ pre, f.name ≠ name) ∧
      (deleteFile m name confirm).1.files = pre ++ post ∧
      (deleteFile m name confirm).1.archive = m.archive := by
  obtain ⟨files, archive⟩ := m
  rcases name_cases files name with hnone | ⟨pre, r, post, hs, hr, hpre⟩
  · obtain ⟨f, hf, hfn⟩ := h
    exact absurd hfn (hnone f hf)
  · refine ⟨pre, r, post, hs, hr, hpre, ?_⟩
    rw [deleteFile_first files pre post archive r name confirm hs hr hpre]
    simp [hc]

/-- The statement of C4 at the sample catalog, the name `Notes.txt` and the
answer `y`. -/
theorem deleteFile_confirmed_removes_first_match_witness :
    ∃ pre r post, sampleManager.files = pre ++ r :: post ∧ r.name = "Notes.txt" ∧
      (∀ f ∈ pre, f.name ≠ "Notes.txt") ∧
      (deleteFile sampleManager "Notes.txt" 'y').1.files = pre ++ post ∧
      (deleteFile sampleManager "Notes.txt" 'y').1.archive = sampleManager.archive :=
  deleteFile_confirmed_removes_first_match sampleManager "Notes.txt" 'y' (Or.inl rfl)
    (by decide)

/-- C5: when the answer read is neither `y` nor `Y` (and also when no answer is
read because the name is not found), `deleteFile` leaves the live vector and the
archive exactly as they were. -/
theorem deleteFile_unconfirmed_changes_nothing (m : FileManager) (name : String)
    (confirm : Char) (hc : ¬ (confirm = 'y' ∨ confirm = 'Y')) :
    (deleteFile m name confirm).1 = m ∧
    (deleteFile m name confirm).1.files = m.files ∧
    (deleteFile m name confirm).1.archive = m.archive := by
  have key : (deleteFile m name confirm).1 = m := by
    obtain ⟨files, archive⟩ := m
    rcases name_cases files name with hnone | ⟨pre, r, post, hs, hr, hpre⟩
    · rw [deleteFile_absent ⟨files, archive⟩ name confirm hnone]
    · rw [deleteFile_first files pre post archive r name confirm hs hr hpre]
      simp [hc]
  exact ⟨key, by rw [key], by rw [key]⟩

/-- The statement of C5 at the sample catalog, the name `Notes.txt` and the
answer `n`. -/
theorem deleteFile_unconfirmed_changes_nothing_witness :
    (deleteFile sampleManager "Notes.txt" 'n').1 = sampleManager ∧
    (deleteFile sampleManager "Notes.txt" 'n').1.files = sampleManager.files ∧
    (deleteFile sampleManager "Notes.txt" 'n').1.archive = sampleManager.archive :=
  deleteFile_unconfirmed_changes_nothing sampleManager "Notes.txt" 'n' (by decide)

theorem signalsNotFound_moveToArchive (m : FileManager) (name : String) :
    SignalsNotFound (moveToArchive m name).2 name ↔ ∀ f ∈ m.files, f.name ≠ name := by
  obtain ⟨files, archive⟩ := m
  rcases name_cases files name with hnone | ⟨pre, r, post, hs, hr, hpre⟩
  · rw [moveToArchive_absent ⟨files, archive⟩ name hnone]
    exact ⟨fun _ => hnone, fun _ => List.mem_singleton.mpr rfl⟩
  · rw [moveToArchive_first files pre post archive r name hs hr hpre]
    have hex : ¬ ∀ f ∈ files, f.name ≠ name := by
      intro hall
      exact hall r (by simp [hs]) hr
    simp [SignalsNotFound, hex]

/-- C6: `moveToArchive` signals `NotFound` exactly when no live record has the
name, and when it does, the live vector and the archive are unchanged. -/
theorem moveToArchive_notFound_iff (m : FileManager) (name : String) :
    (SignalsNotFound (moveToArchive m name).2 name ↔ ∀ f ∈ m.files, f.name ≠ name) ∧
    (SignalsNotFound (moveToArchive m name).2 name →
      (moveToArchive m name).1.files = m.files ∧
      (moveToArchive m name).1.archive = m.archive) := by
  refine ⟨signalsNotFound_moveToArchive m name, ?_⟩
  intro hsig
  have hnone := (signalsNotFound_moveToArchive m name).mp hsig
  rw [moveToArchive_absent m name hnone]
  exact ⟨rfl, rfl⟩

/-- The statement of C6 at the sample catalog and a name no record has. -/
theorem moveToArchive_notFound_iff_witness :
    SignalsNotFound (moveToArchive sampleManager "Missing.txt").2 "Missing.txt" ∧
    (moveToArchive sampleManager "Missing.txt").1.files = sampleManager.files ∧
    (moveToArchive sampleManager "Missing.txt").1.archive = sampleManager.archive :=
  ⟨by decide,
   (moveToArchive_notFound_iff sampleManager "Missing.txt").2 (by decide)⟩

/-- C7, as stated, fails: with two live records named `a.txt`, the first
`moveToArchive("a.txt")` succeeds and so does the second, which signals no
`NotFound`. -/
theorem second_archive_succeeds_on_duplicate_name :
    (moveToArchive ⟨[twinFirst, twinSecond], []⟩ "a.txt")
      = (⟨[twinSecond], [twinFirst]⟩, [Message.movedToArchive "a.txt"]) ∧
    (moveToArchive (moveToArchive ⟨[twinFirst, twinSecond], []⟩ "a.txt").1 "a.txt")
      = (⟨[], [twinFirst, twinSecond]⟩, [Message.movedToArchive "a.txt"]) ∧
    ¬ SignalsNotFound
        (moveToArchive (moveToArchive ⟨[twinFirst, twinSecond], []⟩ "a.txt").1 "a.txt").2
        "a.txt" := by
  decide

/-- C7, amended: if `moveToArchive(name)` succeeds, a second `moveToArchive(name)` on
the resulting catalog signals `NotFound` exactly when one live record, and no more,
had that name before the first call. -/
theorem second_archive_notFound_iff_unique (m : FileManager) (name : String)
    (h : ¬ SignalsNotFound (moveToArchive m name).2 name) :
    SignalsNotFound (moveToArchive (moveToArchive m name).1 name).2 name ↔
      (m.files.filter (fun f => decide (f.name = name))).length = 1 := by
  obtain ⟨files, archive⟩ := m
  rcases name_cases files name with hnone | ⟨pre, r, post, hs, hr, hpre⟩
  · exact absurd ((signalsNotFound_moveToArchive ⟨files, archive⟩ name).mpr hnone) h
  · rw [moveToArchive_first files pre post archive r name hs hr hpre]
    rw [signalsNotFound_moveToArchive ⟨pre ++ post, archive ++ [r]⟩ name]
    have hprefilter : pre.filter (fun f => decide (f.name = name)) = [] := by
      apply List.filter_eq_nil_iff.mpr
      intro f hf
      simpa using hpre f hf
    simp only [hs, List.filter_append, hprefilter, List.nil_append, List.filter_cons, hr,
      decide_True, if_true, List.length_cons]
    constructor
    · intro hall
      have : post.filter (fun f => decide (f.name = name)) = [] := by
        apply List.filter_eq_nil_iff.mpr
        intro f hf
        simpa using hall f (List.mem_append_right pre hf)
      simp [this]
    · intro hlen f hf
      have hnil : post.filter (fun f => decide (f.name = name)) = [] := by
        apply List.eq_nil_of_length_eq_zero
        omega
      rcases List.mem_append.mp hf with hp | hp
      · exact hpre f hp
      · have := List.filter_eq_nil_iff.mp hnil f hp
        simpa using this

/-- The amended C7 at the sample catalog and the name `Notes.txt`. -/
theorem second_archive_notFound_iff_unique_witness :
    SignalsNotFound
        (moveToArchive (moveToArchive sampleManager "Notes.txt").1 "Notes.txt").2 "Notes.txt" ↔
      (sampleManager.files.filter (fun f => decide (f.name = "Notes.txt"))).length = 1 :=
  second_archive_notFound_iff_unique sampleManager "Notes.txt" (by decide)

/-! ## Lookup by name -/

theorem getFileByName_eq_find (m : FileManager) (name : String) :
    getFileByName m name = m.files.find? (fun f => f.getName == name) := by
  obtain ⟨files, archive⟩ := m
  rcases name_cases files name with hnone | ⟨pre, r, post, hs, hr, hpre⟩
  · rw [getFileByName_absent ⟨files, archive⟩ name hnone]
    symm
    apply List.find?_eq_none.mpr
    intro f hf
    simpa [File.getName] using hnone f hf
  · rw [getFileByName_first files pre post archive r name hs hr hpre]
    have hp : pre.find? (fun f => f.name == name) = none := by
      apply List.find?_eq_none.mpr
      intro f hf
      simpa using hpre f hf
    simp [hs, List.find?_append, hp, List.find?_cons, File.getName, hr]

/-- C8: `getFileByName` returns the first live record, in insertion order, whose
name is exactly `name`; it returns the null pointer exactly when no live record has
that name; and its result does not depend on the archive. -/
theorem getFileByName_first_live_match (m : FileManager) (name : String) :
    (∀ r, getFileByName m name = some r ↔
      ∃ pre post, m.files = pre ++ r :: post ∧ r.name = name ∧ ∀ f ∈ pre, f.name ≠ name) ∧
    (getFileByName m name = none ↔ ∀ f ∈ m.files, f.name ≠ name) ∧
    (∀ archive2, getFileByName ⟨m.files, archive2⟩ name = getFileByName m name) := by
  obtain ⟨files, archive⟩ := m
  refine ⟨?_, ?_, ?_⟩
  · intro r
    constructor
    · intro hget
      rcases name_cases files name with hnone | ⟨pre, r2, post, hs, hr, hpre⟩
      · rw [getFileByName_absent ⟨files, archive⟩ name hnone] at hget
        cases hget
      · rw [getFileByName_first files pre post archive r2 name hs hr hpre] at hget
        cases hget
        exact ⟨pre, post, hs, hr, hpre⟩
    · rintro ⟨pre, post, hs, hr, hpre⟩
      exact getFileByName_first files pre post archive r name hs hr hpre
  · constructor
    · intro hget
      rcases name_cases files name with hnone | ⟨pre, r2, post, hs, hr, hpre⟩
      · exact hnone
      · rw [getFileByName_first files pre post archive r2 name hs hr hpre] at hget
        cases hget
    · intro hnone
      exact getFileByName_absent ⟨files, archive⟩ name hnone
  · intro archive2
    rw [getFileByName_eq_find, getFileByName_eq_find]

/-- The statement of C8 at the sample catalog: the lookup of `Notes.txt` finds the
third record, behind two records with other names. -/
theorem getFileByName_first_live_match_witness :
    getFileByName sampleManager "Notes.txt"
      = some ⟨3, .TextDocument, "Notes.txt", "C:/Documents", "01.01.2021", "", 50,
          ["work", "personal"]⟩ :=
  ((getFileByName_first_live_match sampleManager "Notes.txt").1 _).mpr
    ⟨[⟨1, .PDFDocument, "Report.pdf", "C:/Documents", "10.05.2023", "", 200,
        ["work", "project"]⟩,
      ⟨2, .ImageFile, "Image.jpg", "C:/Pictures", "15.11.2022", "", 1500,
        ["vacation", "family"]⟩],
     [⟨4, .VideoFile, "Video.mp4", "C:/Videos", "20.02.2020", "", 500000, ["work"]⟩,
      ⟨5, .AudioFile, "Podcast.mp3", "C:/Music", "05.04.2021", "", 100000, ["project"]⟩],
     rfl, rfl, by decide⟩

theorem find_remove_other (pre post : List File) (r : File) (p : File → Bool)
    (h : p r = false) : (pre ++ r :: post).find? p = (pre ++ post).find? p := by
  simp [List.find?_append, List.find?_cons, h]

theorem getFileByName_step (m : FileManager) (name : String) (r : File) (op : Op)
    (hget : getFileByName m name = some r) (hop : Op.removes name op = false) :
    getFileByName (step m op) name = some r := by
  obtain ⟨files, archive⟩ := m
  rw [getFileByName_eq_find] at hget ⊢
  simp only at hget
  cases op with
  | add file =>
    simp [step, addFile, List.find?_append, hget]
  | archive n =>
    have hn : n ≠ name := by simpa [Op.removes] using hop
    rcases name_cases files n with hnone | ⟨pre, r2, post, hs, hr, hpre⟩
    · simp only [step]
      rw [moveToArchive_absent ⟨files, archive⟩ n hnone]
      exact hget
    · simp only [step]
      rw [moveToArchive_first files pre post archive r2 n hs hr hpre]
      have hp : (r2.getName == name) = false := by
        simp [File.getName, hr, hn]
      rw [hs, find_remove_other pre post r2 _ hp] at hget
      exact hget
  | delete n confirm =>
    rcases name_cases files n with hnone | ⟨pre, r2, post, hs, hr, hpre⟩
    · simp only [step]
      rw [deleteFile_absent ⟨files, archive⟩ n confirm hnone]
      exact hget
    · simp only [step]
      rw [deleteFile_first files pre post archive r2 n confirm hs hr hpre]
      by_cases hc : confirm = 'y' ∨ confirm = 'Y'
      · have hn : n ≠ name := by
          intro hnn
          have hcb : (confirm == 'y' || confirm == 'Y') = true := by
            simpa using hc
          simp [Op.removes, hnn, hcb] at hop
        have hp : (r2.getName == name) = false := by
          simp [File.getName, hr, hn]
        rw [hs, find_remove_other pre post r2 _ hp] at hget
        simpa [hc] using hget
      · simpa [hc] using hget

theorem getFileByName_run (ops : List Op) (m : FileManager) (name : String) (r : File)
    (hget : getFileByName m name = some r)
    (hops : ∀ op ∈ ops, Op.removes name op = false) :
    getFileByName (run m ops) name = some r := by
  induction ops generalizing m with
  | nil => simpa [run] using hget
  | cons op ops ih =>
    have h1 := getFileByName_step m name r op hget (hops op (List.mem_cons_self op ops))
    have h2 := ih (step m op) h1 (fun o ho => hops o (List.mem_cons_of_mem op ho))
    simpa [run, List.foldl_cons] using h2

/-- C9, as stated, fails: after `addFile` of a second record named `a.txt`,
`getFileByName("a.txt")` returns the record added first, not the one just added. -/
theorem getFileByName_after_add_returns_older_twin :
    getFileByName (addFile ⟨[twinFirst], []⟩ twinSecond) twinSecond.name = some twinFirst ∧
    getFileByName (addFile ⟨[twinFirst], []⟩ twinSecond) twinSecond.name ≠ some twinSecond := by
  decide

/-- C9, amended: if no live record has the name of `r` when `r` is added, then after
`addFile(r)` the call `getFileByName(r.name)` returns `r`, and it keeps doing so
across every later sequence of operations none of which archives, or deletes with
confirmation, under that name (later adds of any record included). -/
theorem getFileByName_returns_added_record (m : FileManager) (r : File) (ops : List Op)
    (hfresh : ∀ f ∈ m.files, f.name ≠ r.name)
    (hops : ∀ op ∈ ops, Op.removes r.name op = false) :
    getFileByName (addFile m r) r.name = some r ∧
    getFileByName (run (addFile m r) ops) r.name = some r := by
  have h0 : getFileByName (addFile m r) r.name = some r :=
    getFileByName_first (m.files ++ [r]) m.files [] m.archive r r.name rfl rfl hfresh
  exact ⟨h0, getFileByName_run ops (addFile m r) r.name r h0 hops⟩

/-- The amended C9 at the sample catalog: a new record `New.txt` is found by name
after a later add of a record of the same name, an archive and a confirmed delete
of other names, and an unconfirmed delete of `New.txt` itself. -/
theorem getFileByName_returns_added_record_witness :
    getFileByName
      (run (addFile sampleManager ⟨6, .TextDocument, "New.txt", "C:/", "03.03.2023", "", 7, []⟩)
        [Op.add ⟨7, .TextDocument, "New.txt", "D:/", "04.04.2024", "", 8, []⟩,
         Op.archive "Notes.txt", Op.delete "Video.mp4" 'y', Op.delete "New.txt" 'n'])
      "New.txt"
      = some ⟨6, .TextDocument, "New.txt", "C:/", "03.03.2023", "", 7, []⟩ :=
  (getFileByName_returns_added_record sampleManager
    ⟨6, .TextDocument, "New.txt", "C:/", "03.03.2023", "", 7, []⟩
    [Op.add ⟨7, .TextDocument, "New.txt", "D:/", "04.04.2024", "", 8, []⟩,
     Op.archive "Notes.txt", Op.delete "Video.mp4" 'y', Op.delete "New.txt" 'n']
    (by decide) (by decide)).2

/-! ## Live and archived records stay apart -/

theorem freedBy_first (files pre post archive : List File) (r : File) (name : String)
    (confirm : Char) (hsplit : files = pre ++ r :: post) (hr : r.name = name)
    (hpre : ∀ f ∈ pre, f.name ≠ name) :
    freedBy ⟨files, archive⟩ name confirm
      = if confirm = 'y' ∨ confirm = 'Y' then some r else none := by
  subst hsplit
  have hit : find_if (pre ++ r :: post) (fun f => f.getName == name) = pre.length :=
    find_if_append_cons pre post r _
      (fun f hf => (nameTest_false_iff f name).mpr (hpre f hf))
      ((nameTest_true_iff r name).mpr hr)
  simp [freedBy, hit, getElem_append_cons_length]

theorem freedBy_absent (m : FileManager) (name : String) (confirm : Char)
    (h : ∀ f ∈ m.files, f.name ≠ name) : freedBy m name confirm = none := by
  have hit : find_if m.files (fun f => f.getName == name) = m.files.length :=
    find_if_all_false m.files _ (fun f hf => (nameTest_false_iff f name).mpr (h f hf))
  simp [freedBy, hit]

theorem move_perm (pre post archive : List File) (r : File) :
    ((pre ++ post) ++ (archive ++ [r])).Perm ((pre ++ r :: post) ++ archive) := by
  rw [List.perm_iff_count]
  intro a
  simp only [List.count_append, List.count_cons, List.count_nil]
  omega

theorem consistent_step (m : FileManager) (owned : List File) (op : Op)
    (hinv : Consistent m owned) (hfresh : Op.Fresh m op) :
    Consistent (step m op) (stepOwned m owned op) := by
  obtain ⟨files, archive⟩ := m
  obtain ⟨hnd, hmem⟩ := hinv
  simp only at hnd hmem
  cases op with
  | add file =>
    obtain ⟨hf1, hf2⟩ := hfresh
    simp only at hf1 hf2
    refine ⟨?_, ?_⟩
    · have hperm : ((files ++ [file]) ++ archive).Perm (file :: (files ++ archive)) := by
        rw [List.perm_iff_count]
        intro a
        simp only [List.count_append, List.count_cons, List.count_nil]
        omega
      show ((files ++ [file]) ++ archive).Nodup
      rw [hperm.nodup_iff, List.nodup_cons]
      exact ⟨by simp [hf1, hf2], hnd⟩
    · intro r
      show r ∈ owned ++ [file] ↔ (r ∈ files ++ [file] ∨ r ∈ archive)
      simp only [List.mem_append, List.mem_singleton, hmem r]
      tauto
  | archive n =>
    rcases name_cases files n with hnone | ⟨pre, r2, post, hs, hr, hpre⟩
    · simp only [step, stepOwned]
      rw [moveToArchive_absent ⟨files, archive⟩ n hnone]
      exact ⟨hnd, hmem⟩
    · simp only [step, stepOwned]
      rw [moveToArchive_first files pre post archive r2 n hs hr hpre]
      have hperm := move_perm pre post archive r2
      refine ⟨?_, ?_⟩
      · show ((pre ++ post) ++ (archive ++ [r2])).Nodup
        rw [hperm.nodup_iff, ← hs]
        exact hnd
      · intro r
        show r ∈ owned ↔ (r ∈ pre ++ post ∨ r ∈ archive ++ [r2])
        rw [hmem r, hs]
        simp only [List.mem_append, List.mem_cons, List.mem_singleton]
        tauto
  | delete n confirm =>
    rcases name_cases files n with hnone | ⟨pre, r2, post, hs, hr, hpre⟩
    · simp only [step, stepOwned]
      rw [deleteFile_absent ⟨files, archive⟩ n confirm hnone,
        freedBy_absent ⟨files, archive⟩ n confirm hnone]
      exact ⟨hnd, hmem⟩
    · simp only [step, stepOwned]
      rw [deleteFile_first files pre post archive r2 n confirm hs hr hpre,
        freedBy_first files pre post archive r2 n confirm hs hr hpre]
      by_cases hc : confirm = 'y' ∨ confirm = 'Y'
      · simp only [hc, if_true]
        have hperm : ((pre ++ r2 :: post) ++ archive).Perm (r2 :: ((pre ++ post) ++ archive)) := by
          rw [List.perm_iff_count]
          intro a
          simp only [List.count_append, List.count_cons, List.count_nil]
          omega
        rw [hs, hperm.nodup_iff, List.nodup_cons] at hnd
        obtain ⟨hr2, hnd2⟩ := hnd
        refine ⟨hnd2, ?_⟩
        intro r
        show r ∈ owned.filter (fun f => decide (f ≠ r2)) ↔ (r ∈ pre ++ post ∨ r ∈ archive)
        have hr2' : ¬ (r2 ∈ pre ∨ r2 ∈ post ∨ r2 ∈ archive) := by
          simpa [List.mem_append, or_assoc] using hr2
        rw [List.mem_filter, hmem r, hs]
        simp only [List.mem_append, List.mem_cons, decide_eq_true_eq]
        constructor
        · rintro ⟨h1, h2⟩
          tauto
        · intro h1
          refine ⟨by tauto, ?_⟩
          intro heq
          subst heq
          tauto
      · simp only [hc, if_false]
        exact ⟨hnd, hmem⟩

theorem consistent_run (ops : List Op) (m : FileManager) (owned : List File)
    (hinv : Consistent m owned) (hfresh : AddsFresh m ops) :
    Consistent (run m ops) (runOwned m owned ops) := by
  induction ops generalizing m owned with
  | nil => simpa [run, runOwned] using hinv
  | cons op ops ih =>
    obtain ⟨h1, h2⟩ := hfresh
    have := ih (step m op) (stepOwned m owned op) (consistent_step m owned op hinv h1) h2
    simpa [run, runOwned, List.foldl_cons] using this

theorem consistent_empty : Consistent emptyManager [] := by
  simp [Consistent, emptyManager]

theorem consistent_disjoint (m : FileManager) (owned : List File)
    (hinv : Consistent m owned) (r : File) (hr : r ∈ m.files) : r ∉ m.archive := by
  have h := (List.nodup_append.mp hinv.1).2.2
  exact fun ha => h hr ha

theorem mem_files_of_mem_search (m : FileManager) (type tag : String)
    (minSize maxSize : Nat) (creationDate modificationDate : String) (r : File)
    (hr : r ∈ search m type tag minSize maxSize creationDate modificationDate) :
    r ∈ m.files := by
  rw [search_eq_filter] at hr
  exact (List.mem_filter.mp hr).1

theorem mem_files_of_getFileByName (m : FileManager) (name : String) (r : File)
    (hr : getFileByName m name = some r) : r ∈ m.files := by
  rw [getFileByName_eq_find] at hr
  exact List.mem_of_find?_eq_some hr

/-- C3: in every catalog reached from the empty one by adds of records not
already in the catalog, archives and deletes, no record is both live and archived,
every record added and not deleted is in exactly one of the two vectors, and
neither `search` (whatever the criteria) nor `getFileByName` returns an archived
record. -/
theorem live_and_archived_stay_apart (ops : List Op)
    (hfresh : AddsFresh emptyManager ops) :
    (∀ r, r ∈ (run emptyManager ops).files → r ∉ (run emptyManager ops).archive) ∧
    (∀ r ∈ runOwned emptyManager [] ops,
      (r ∈ (run emptyManager ops).files ∧ r ∉ (run emptyManager ops).archive) ∨
      (r ∉ (run emptyManager ops).files ∧ r ∈ (run emptyManager ops).archive)) ∧
    (∀ (type tag : String) (minSize maxSize : Nat) (creationDate modificationDate : String),
      ∀ r ∈ search (run emptyManager ops) type tag minSize maxSize creationDate
              modificationDate,
        r ∉ (run emptyManager ops).archive) ∧
    (∀ name r, getFileByName (run emptyManager ops) name = some r →
      r ∉ (run emptyManager ops).archive) := by
  have hinv := consistent_run ops emptyManager [] consistent_empty hfresh
  have hdis := consistent_disjoint _ _ hinv
  refine ⟨hdis, ?_, ?_, ?_⟩
  · intro r hr
    rcases (hinv.2 r).mp hr with hl | ha
    · exact Or.inl ⟨hl, hdis r hl⟩
    · exact Or.inr ⟨fun hl => hdis r hl ha, ha⟩
  · intro type tag minSize maxSize creationDate modificationDate r hr
    exact hdis r (mem_files_of_mem_search _ _ _ _ _ _ _ r hr)
  · intro name r hr
    exact hdis r (mem_files_of_getFileByName _ name r hr)

/-- The statement of C3 at the sample session, which ends with `Image.jpg` live and
`Report.pdf` archived. -/
theorem live_and_archived_stay_apart_witness :
    AddsFresh emptyManager sampleSession ∧
    run emptyManager sampleSession = ⟨[sampleImage], [samplePdf]⟩ ∧
    runOwned emptyManager [] sampleSession = [samplePdf, sampleImage] ∧
    (∀ r, r ∈ (run emptyManager sampleSession).files →
      r ∉ (run emptyManager sampleSession).archive) :=
  ⟨by decide, by decide, by decide,
   (live_and_archived_stay_apart sampleSession (by decide)).1⟩

/-! ## Sorting -/

/-- A comparison object that compares one key by `<` in a linear order is a strict
weak ordering. -/
theorem strictWeak_of_key {κ : Type} [LinearOrder κ] (key : File → κ)
    (comp : File → File → Bool) (hcomp : ∀ a b, comp a b = true ↔ key a < key b) :
    StrictWeakOrdering comp := by
  have hfalse : ∀ a b, comp a b = false ↔ key b ≤ key a := by
    intro a b
    rw [← not_lt, ← hcomp a b]
    simp
  refine ⟨?_, ?_, ?_⟩
  · intro a
    exact (hfalse a a).mpr (le_refl _)
  · intro a b c hab hbc
    exact (hcomp a c).mpr (lt_trans ((hcomp a b).mp hab) ((hcomp b c).mp hbc))
  · intro a b c hab hba hbc hcb
    rw [hfalse] at hab hba hbc hcb
    rw [hfalse, hfalse]
    exact ⟨le_trans hbc hab, le_trans hba hcb⟩

/-- Insertion sort meets the contract of `std::sort`. -/
theorem insertionStdSort_contract : StdSortContract insertionStdSort := by
  intro comp v hswo
  have hasymm : ∀ a b, comp a b = true → comp b a = false := by
    intro a b hab
    cases hba : comp b a
    · rfl
    · have haa := hswo.trans a b a hab hba
      rw [hswo.irrefl a] at haa
      cases haa
  haveI htotal : IsTotal File (fun a b => comp b a = false) := by
    refine ⟨fun a b => ?_⟩
    cases hba : comp b a
    · exact Or.inl rfl
    · exact Or.inr (hasymm b a hba)
  haveI htrans : IsTrans File (fun a b => comp b a = false) := by
    refine ⟨fun a b c hba hcb => ?_⟩
    cases hca : comp c a
    · rfl
    · exfalso
      cases hab : comp a b
      · cases hbc : comp b c
        · have := (hswo.equiv_trans a b c hab hba hbc hcb).2
          rw [hca] at this
          cases this
        · have := hswo.trans b c a hbc hca
          rw [hba] at this
          cases this
      · have := hswo.trans c a b hca hab
        rw [hcb] at this
        cases this
  exact ⟨List.perm_insertionSort _ v, List.sorted_insertionSort _ v⟩

/-- C10: for each of the keys `name`, `creationDate` and `size`, `sortFiles` leaves a
permutation of the vector it was given, non-decreasing in the key: names and
creation dates in the lexicographic order of strings, sizes in the order of
numbers. `std::sort` is any function meeting its contract. -/
theorem sortFiles_sorted_permutation
    (stdSort : (File → File → Bool) → List File → List File)
    (hstd : StdSortContract stdSort) (files : List File) :
    ((sortFiles stdSort files "name").Perm files ∧
      (sortFiles stdSort files "name").Pairwise (fun a b => a.name ≤ b.name)) ∧
    ((sortFiles stdSort files "creationDate").Perm files ∧
      (sortFiles stdSort files "creationDate").Pairwise
        (fun a b => a.creationDate ≤ b.creationDate)) ∧
    ((sortFiles stdSort files "size").Perm files ∧
      (sortFiles stdSort files "size").Pairwise (fun a b => a.size ≤ b.size)) := by
  have hname := hstd (fun a b => decide (a.getName < b.getName)) files
    (strictWeak_of_key File.getName _ (fun a b => decide_eq_true_iff))
  have hdate := hstd (fun a b => decide (a.getCreationDate < b.getCreationDate)) files
    (strictWeak_of_key File.getCreationDate _ (fun a b => decide_eq_true_iff))
  have hsize := hstd (fun a b => decide (a.getSize < b.getSize)) files
    (strictWeak_of_key File.getSize _ (fun a b => decide_eq_true_iff))
  have e1 : sortFiles stdSort files "name"
      = stdSort (fun a b => decide (a.getName < b.getName)) files := by
    simp [sortFiles]
  have e2 : sortFiles stdSort files "creationDate"
      = stdSort (fun a b => decide (a.getCreationDate < b.getCreationDate)) files := by
    simp [sortFiles]
  have e3 : sortFiles stdSort files "size"
      = stdSort (fun a b => decide (a.getSize < b.getSize)) files := by
    simp [sortFiles]
  rw [e1, e2, e3]
  refine ⟨⟨hname.1, ?_⟩, ⟨hdate.1, ?_⟩, ⟨hsize.1, ?_⟩⟩
  · refine hname.2.imp ?_
    intro a b hab
    simpa [File.getName] using hab
  · refine hdate.2.imp ?_
    intro a b hab
    simpa [File.getCreationDate] using hab
  · refine hsize.2.imp ?_
    intro a b hab
    simpa [File.getSize] using hab

/-- The statement of C10 for insertion sort and the sample catalog, sorted by
size. -/
theorem sortFiles_sorted_permutation_witness :
    (sortFiles insertionStdSort sampleManager.files "size").map File.getSize
      = [50, 200, 1500, 100000, 500000] ∧
    (sortFiles insertionStdSort sampleManager.files "size").Perm sampleManager.files ∧
    (sortFiles insertionStdSort sampleManager.files "size").Pairwise
      (fun a b => a.size ≤ b.size) :=
  ⟨by decide,
   (sortFiles_sorted_permutation insertionStdSort insertionStdSort_contract
      sampleManager.files).2.2⟩

/-- C19: for a key other than `name`, `creationDate` and `size`, `sortFiles` leaves
the vector as it was, whatever `std::sort` is (it is not called); the method has no
other effect and no way to signal an error. -/
theorem sortFiles_unknown_key_unchanged
    (stdSort : (File → File → Bool) → List File → List File)
    (files : List File) (sortBy : String)
    (h1 : sortBy ≠ "name") (h2 : sortBy ≠ "creationDate") (h3 : sortBy ≠ "size") :
    sortFiles stdSort files sortBy = files := by
  simp [sortFiles, h1, h2, h3]

/-- The statement of C19 for the sample catalog and the key `sizeKB`. -/
theorem sortFiles_unknown_key_unchanged_witness :
    sortFiles insertionStdSort sampleManager.files "sizeKB" = sampleManager.files :=
  sortFiles_unknown_key_unchanged insertionStdSort sampleManager.files "sizeKB"
    (by decide) (by decide) (by decide)

theorem name_sorted_of_contract
    (stdSort : (File → File → Bool) → List File → List File)
    (hstd : StdSortContract stdSort) (files : List File) :
    (sortFiles stdSort files "name").Perm files ∧
    (sortFiles stdSort files "name").Pairwise (fun a b => a.name ≤ b.name) := by
  have hname := hstd (fun a b => decide (a.getName < b.getName)) files
    (strictWeak_of_key File.getName _ (fun a b => decide_eq_true_iff))
  have e1 : sortFiles stdSort files "name"
      = stdSort (fun a b => decide (a.getName < b.getName)) files := by
    simp [sortFiles]
  rw [e1]
  refine ⟨hname.1, hname.2.imp ?_⟩
  intro a b hab
  simpa [File.getName] using hab

theorem nameComp_eq :
    (fun a b : File => decide (a.getName < b.getName))
      = (fun a b : File => decide (a.name.data < b.name.data)) := by
  funext a b
  exact decide_eq_decide.mpr String.lt_iff_toList_lt

/-- C11, as stated, fails: with the `std::sort` of the GNU C++ library, `sortFiles`
by name returns seventeen records that all bear the name `a.txt` in an order other
than that of the input: the record that was first comes out tenth, behind nine
records that followed it. The result is a permutation of the input, as a sort
must give. -/
theorem sortFiles_name_reorders_namesakes :
    (∀ f ∈ namesakes, f.name = "a.txt") ∧
    namesakes.map File.addr = [0, 1, 2, 3, 4, 5, 6, 7, 8, 9, 10, 11, 12, 13, 14, 15, 16] ∧
    (gnuSort (fun a b => decide (a.getName < b.getName)) namesakes).isSome = true ∧
    (sortFiles gnuStdSort namesakes "name").map File.addr
      = [8, 16, 15, 14, 13, 12, 11, 10, 9, 0, 7, 6, 5, 4, 3, 2, 1] ∧
    (sortFiles gnuStdSort namesakes "name").Perm namesakes := by
  have e : sortFiles gnuStdSort namesakes "name"
      = gnuStdSort (fun a b => decide (a.getName < b.getName)) namesakes := by
    simp [sortFiles]
  rw [e, nameComp_eq]
  refine ⟨by decide, by decide, by decide, by decide, by decide⟩

theorem filter_name_cons (k : String) (a : File) (l : List File) :
    (a :: l).filter (fun f => decide (f.name = k))
      = if a.name = k then a :: l.filter (fun f => decide (f.name = k))
        else l.filter (fun f => decide (f.name = k)) := by
  rw [List.filter_cons]
  simp only [decide_eq_true_eq]

theorem filter_orderedInsert_name (k : String) (a : File) (l : List File) :
    (l.orderedInsert (fun x y => x.name ≤ y.name) a).filter (fun f => decide (f.name = k))
      = if a.name = k then a :: l.filter (fun f => decide (f.name = k))
        else l.filter (fun f => decide (f.name = k)) := by
  induction l with
  | nil => exact filter_name_cons k a []
  | cons b l ih =>
    have hcons : (b :: l).orderedInsert (fun x y => x.name ≤ y.name) a
        = if a.name ≤ b.name then a :: b :: l
          else b :: l.orderedInsert (fun x y => x.name ≤ y.name) a := rfl
    rw [hcons]
    by_cases hab : a.name ≤ b.name
    · rw [if_pos hab]
      exact filter_name_cons k a (b :: l)
    · rw [if_neg hab, filter_name_cons k b, ih, filter_name_cons k b l]
      have hlt : b.name < a.name := not_le.mp hab
      by_cases hk : a.name = k
      · have hbk : ¬ b.name = k := fun h => absurd (h.trans hk.symm) (ne_of_lt hlt)
        simp only [if_pos hk, if_neg hbk]
      · by_cases hbk : b.name = k
        · simp only [if_neg hk, if_pos hbk]
        · simp only [if_neg hk, if_neg hbk]

/-- The reference sort keeps, for every name, the records bearing it in the order
of the input: it is stable. -/
theorem stableSortByName_stable (files : List File) (k : String) :
    (stableSortByName files).filter (fun f => decide (f.name = k))
      = files.filter (fun f => decide (f.name = k)) := by
  induction files with
  | nil => rfl
  | cons a l ih =>
    have h := filter_orderedInsert_name k a (List.insertionSort (fun x y => x.name ≤ y.name) l)
    simp only [stableSortByName] at ih
    simp only [stableSortByName, List.insertionSort]
    rw [h, ih, filter_name_cons k a l]

theorem stableSortByName_sorted_perm (files : List File) :
    (stableSortByName files).Perm files ∧
    (stableSortByName files).Pairwise (fun a b => a.name ≤ b.name) := by
  haveI : IsTotal File (fun a b => a.name ≤ b.name) := ⟨fun a b => le_total a.name b.name⟩
  haveI : IsTrans File (fun a b => a.name ≤ b.name) := ⟨fun a b c h1 h2 => le_trans h1 h2⟩
  exact ⟨List.perm_insertionSort _ files, List.sorted_insertionSort _ files⟩

/-- C11, amended: the stable ascending sort by name (insertion sort: a permutation
of the input, in non-decreasing name order, keeping for every name the records
bearing it in the order of the input) is the reference. `sortFiles` by name returns
the same sequence of names as the reference; for every name the records bearing it
are the same as in the input, in some order; and when no two records of the input
share a name the result is the reference itself, so that the sort is stable. The
relative order of records with equal names is whatever `std::sort` leaves. -/
theorem sortFiles_name_stable_up_to_equal_names
    (stdSort : (File → File → Bool) → List File → List File)
    (hstd : StdSortContract stdSort) (files : List File) :
    ((stableSortByName files).Perm files ∧
      (stableSortByName files).Pairwise (fun a b => a.name ≤ b.name) ∧
      ∀ k, (stableSortByName files).filter (fun f => decide (f.name = k))
        = files.filter (fun f => decide (f.name = k))) ∧
    (sortFiles stdSort files "name").map File.name
      = (stableSortByName files).map File.name ∧
    (∀ k, ((sortFiles stdSort files "name").filter (fun f => decide (f.name = k))).Perm
      (files.filter (fun f => decide (f.name = k)))) ∧
    ((files.map File.name).Nodup →
      sortFiles stdSort files "name" = stableSortByName files ∧
      ∀ k, (sortFiles stdSort files "name").filter (fun f => decide (f.name = k))
        = files.filter (fun f => decide (f.name = k))) := by
  obtain ⟨hp1, hs1⟩ := name_sorted_of_contract stdSort hstd files
  obtain ⟨hp2, hs2⟩ := stableSortByName_sorted_perm files
  have hdistinct : (files.map File.name).Nodup →
      sortFiles stdSort files "name" = stableSortByName files := by
    intro hnd
    have strict : ∀ l : List File, l.Perm files →
        l.Pairwise (fun a b => a.name ≤ b.name) →
        l.Pairwise (fun a b => a.name < b.name) := by
      intro l hp hs
      have hnd2 : (l.map File.name).Nodup := ((hp.map File.name).nodup_iff).mpr hnd
      have hne : l.Pairwise (fun a b => a.name ≠ b.name) := (List.pairwise_map).mp hnd2
      exact (hs.and hne).imp (fun h => lt_of_le_of_ne h.1 h.2)
    haveI : IsAntisymm File (fun a b => a.name < b.name) :=
      ⟨fun a b hab hba => absurd hab (lt_asymm hba)⟩
    exact List.eq_of_perm_of_sorted (r := fun a b : File => a.name < b.name)
      (hp1.trans hp2.symm) (strict _ hp1 hs1) (strict _ hp2 hs2)
  refine ⟨⟨hp2, hs2, stableSortByName_stable files⟩, ?_, ?_, ?_⟩
  · apply List.eq_of_perm_of_sorted (r := fun a b : String => a ≤ b)
    · exact (hp1.map File.name).trans (hp2.map File.name).symm
    · exact (List.pairwise_map).mpr hs1
    · exact (List.pairwise_map).mpr hs2
  · intro k
    exact hp1.filter _
  · intro hnd
    refine ⟨hdistinct hnd, ?_⟩
    intro k
    rw [hdistinct hnd]
    exact stableSortByName_stable files k

/-- The amended C11 for insertion sort as `std::sort` and the sample catalog, whose
names are pairwise distinct: the result is the reference, and the record named
`Image.jpg` is kept. -/
theorem sortFiles_name_stable_up_to_equal_names_witness :
    sortFiles insertionStdSort sampleManager.files "name" = stableSortByName sampleManager.files ∧
    (stableSortByName sampleManager.files).filter (fun f => decide (f.name = "Image.jpg"))
      = [sampleImage] :=
  ⟨((sortFiles_name_stable_up_to_equal_names insertionStdSort insertionStdSort_contract
      sampleManager.files).2.2.2 (by decide)).1,
   ((sortFiles_name_stable_up_to_equal_names insertionStdSort insertionStdSort_contract
      sampleManager.files).1.2.2 "Image.jpg").trans (by decide)⟩

/-! ## The report -/

theorem foldl_reportStep_total (files : List File) (acc : Nat × String) :
    (files.foldl reportStep acc).1 % (SIZE_MAX + 1)
      = (acc.1 + (files.map File.size).sum) % (SIZE_MAX + 1) := by
  induction files generalizing acc with
  | nil => simp
  | cons f files ih =>
    rw [List.foldl_cons, ih]
    simp only [reportStep, File.getSize, List.map_cons, List.sum_cons]
    rw [Nat.mod_add_mod, Nat.add_assoc]

theorem foldl_reportStep_lt (files : List File) (acc : Nat × String)
    (hacc : acc.1 < SIZE_MAX + 1) : (files.foldl reportStep acc).1 < SIZE_MAX + 1 := by
  induction files generalizing acc with
  | nil => simpa using hacc
  | cons f files ih =>
    rw [List.foldl_cons]
    apply ih
    exact Nat.mod_lt _ (Nat.succ_pos _)

theorem generateReport_totalSize (files : List File) :
    (generateReport files).totalSize = (files.map File.size).sum % (SIZE_MAX + 1) := by
  have h1 := foldl_reportStep_total files (0, "")
  have h2 := foldl_reportStep_lt files (0, "") (Nat.succ_pos _)
  rw [Nat.mod_eq_of_lt h2] at h1
  simpa [generateReport] using h1

/-- C12, as stated, fails: for two records of size `2 ^ 63` the sum of the sizes is
`2 ^ 64`, while the total `generateReport` prints is `0`, and so is the average. -/
theorem generateReport_total_wraps :
    ([hugeFirst, hugeSecond].map File.size).sum = 2 ^ 64 ∧
    (generateReport [hugeFirst, hugeSecond]).totalFiles = 2 ∧
    (generateReport [hugeFirst, hugeSecond]).totalSize = 0 ∧
    (generateReport [hugeFirst, hugeSecond]).averageSize = 0 := by
  decide

/-- C12, amended: `generateReport` prints the number of records, the sum of their
sizes reduced modulo `SIZE_MAX + 1` (the sum itself whenever it is at most
`SIZE_MAX`), and the printed total divided by the number of records, rounded down,
when there is a record, `0` when there is none; for the empty vector it prints
`0`, `0`, `0` and the empty date. -/
theorem generateReport_count_total_average (files : List File) :
    (generateReport files).totalFiles = files.length ∧
    (generateReport files).totalSize = (files.map File.size).sum % (SIZE_MAX + 1) ∧
    ((files.map File.size).sum ≤ SIZE_MAX →
      (generateReport files).totalSize = (files.map File.size).sum) ∧
    (0 < files.length →
      (generateReport files).averageSize = (generateReport files).totalSize / files.length) ∧
    (files.length = 0 → (generateReport files).averageSize = 0) ∧
    generateReport [] = ⟨0, 0, 0, ""⟩ := by
  refine ⟨rfl, generateReport_totalSize files, ?_, ?_, ?_, rfl⟩
  · intro hle
    rw [generateReport_totalSize]
    exact Nat.mod_eq_of_lt (Nat.lt_succ_of_le hle)
  · intro hpos
    simp [generateReport, hpos]
  · intro hzero
    simp [generateReport, hzero]

/-- The amended C12 at the sample catalog: five records, 601750 KB in all, 120350 KB
on average. -/
theorem generateReport_count_total_average_witness :
    (generateReport sampleManager.files).totalFiles = 5 ∧
    (generateReport sampleManager.files).totalSize = 601750 ∧
    (generateReport sampleManager.files).averageSize = 120350 :=
  ⟨(generateReport_count_total_average sampleManager.files).1,
   ((generateReport_count_total_average sampleManager.files).2.2.1 (by decide)).trans
     (by decide),
   ((generateReport_count_total_average sampleManager.files).2.2.2.1 (by decide)).trans
     (by decide)⟩

theorem empty_string_le (s : String) : ("" : String) ≤ s := by
  have hnil : ∀ l : List Char, ¬ l < [] := fun l h => by cases h
  rw [← not_lt, String.lt_iff_toList_lt]
  exact hnil s.toList

theorem foldl_reportStep_date (files : List File) (acc : Nat × String) :
    acc.2 ≤ (files.foldl reportStep acc).2 ∧
    (∀ f ∈ files, f.modificationDate ≤ (files.foldl reportStep acc).2) ∧
    ((files.foldl reportStep acc).2 = acc.2 ∨
      ∃ f ∈ files, f.modificationDate = (files.foldl reportStep acc).2) := by
  induction files generalizing acc with
  | nil => simp
  | cons f files ih =>
    rw [List.foldl_cons]
    obtain ⟨h1, h2, h3⟩ := ih (reportStep acc f)
    have hstep : (reportStep acc f).2
        = if acc.2 < f.modificationDate then f.modificationDate else acc.2 := rfl
    have hacc : acc.2 ≤ (reportStep acc f).2 := by
      rw [hstep]
      split
      · exact le_of_lt (by assumption)
      · exact le_refl _
    have hf : f.modificationDate ≤ (reportStep acc f).2 := by
      rw [hstep]
      split
      · exact le_refl _
      · exact not_lt.mp (by assumption)
    refine ⟨le_trans hacc h1, ?_, ?_⟩
    · intro g hg
      rcases List.mem_cons.mp hg with rfl | hg2
      · exact le_trans hf h1
      · exact h2 g hg2
    · rcases h3 with h3 | ⟨g, hg, hgeq⟩
      · by_cases hlt : acc.2 < f.modificationDate
        · right
          refine ⟨f, List.mem_cons_self f files, ?_⟩
          rw [h3, hstep, if_pos hlt]
        · left
          rw [h3, hstep, if_neg hlt]
      · exact Or.inr ⟨g, List.mem_cons_of_mem f hg, hgeq⟩

/-- C13: the last modification date `generateReport` prints is the greatest, in the
lexicographic order of strings, of the modification dates of the records: it is at
least every record's date, it is the empty string or the date of some record, and
it is the empty string exactly when every record's date is empty (in particular
for the empty vector). -/
theorem generateReport_last_date_is_max (files : List File) :
    (∀ f ∈ files, f.modificationDate ≤ (generateReport files).lastModificationDate) ∧
    ((generateReport files).lastModificationDate = "" ∨
      ∃ f ∈ files, f.modificationDate = (generateReport files).lastModificationDate) ∧
    ((generateReport files).lastModificationDate = "" ↔
      ∀ f ∈ files, f.modificationDate = "") := by
  obtain ⟨_, h2, h3⟩ := foldl_reportStep_date files (0, "")
  have hR : (generateReport files).lastModificationDate
      = (files.foldl reportStep (0, "")).2 := rfl
  rw [hR]
  refine ⟨h2, h3, ?_⟩
  constructor
  · intro hempty f hf
    have := h2 f hf
    rw [hempty] at this
    exact le_antisymm this (empty_string_le _)
  · intro hall
    rcases h3 with h | ⟨g, hg, hgeq⟩
    · exact h
    · rw [← hgeq]
      exact hall g hg

/-- The statement of C13 at two dated records: the date printed is at least the
date of the second. -/
theorem generateReport_last_date_is_max_witness :
    ("15.03.2023" : String) ≤ (generateReport datedFiles).lastModificationDate :=
  (generateReport_last_date_is_max datedFiles).1
    ⟨31, .TextDocument, "b.txt", "C:/", "01.01.2021", "15.03.2023", 2, []⟩ (by decide)

/-! ## Bulk import: the tag loop -/

/-- Either no character satisfies `p`, or the sequence splits at the first that
does. -/
theorem findIdx_cases (l : List Char) (p : Char → Bool) :
    ((∀ x ∈ l, p x = false) ∧ l.findIdx p = l.length) ∨
    ∃ pre x post, l = pre ++ x :: post ∧ p x = true ∧ (∀ y ∈ pre, p y = false) ∧
      l.findIdx p = pre.length := by
  induction l with
  | nil => exact Or.inl ⟨by simp, by simp⟩
  | cons a l ih =>
    by_cases ha : p a = true
    · exact Or.inr ⟨[], a, l, rfl, ha, by simp, by simp [List.findIdx_cons, ha]⟩
    · have ha2 : p a = false := by simpa using ha
      rcases ih with ⟨hall, hidx⟩ | ⟨pre, x, post, hs, hx, hpre, hidx⟩
      · left
        refine ⟨?_, by simp [List.findIdx_cons, ha2, hidx]⟩
        intro y hy
        rcases List.mem_cons.mp hy with rfl | hy2
        · exact ha2
        · exact hall y hy2
      · right
        refine ⟨a :: pre, x, post, by simp [hs], hx, ?_, by simp [List.findIdx_cons, ha2, hidx]⟩
        intro y hy
        rcases List.mem_cons.mp hy with rfl | hy2
        · exact ha2
        · exact hpre y hy2

theorem tagLoop_eq_splitOn (fuel : Nat) (s : List Char) (start : Nat) (tags : List String)
    (hstart : start ≤ s.length) (hfuel : s.length - start < fuel) :
    tagLoop fuel s start tags
      = some (tags ++ ((s.drop start).splitOn ',').map String.mk) := by
  induction fuel generalizing start tags with
  | zero => omega
  | succ fuel ih =>
    have hlen : (s.drop start).length = s.length - start := List.length_drop start s
    rcases findIdx_cases (s.drop start) (fun x => x == ',') with
      ⟨hall, hidx⟩ | ⟨pre, x, post, hs, hx, hpre, hidx⟩
    · have hfind : findChar s ',' start = none := by
        simp only [findChar, hidx, hlen]
        rw [if_neg (by omega)]
      have hsplit : (s.drop start).splitOn ',' = [s.drop start] := by
        apply List.splitOnP_eq_single
        intro y hy
        simpa using hall y hy
      simp only [tagLoop, hfind, hsplit, List.map_cons, List.map_nil]
    · have hxc : x = ',' := by simpa using hx
      subst hxc
      have hlen2 : s.length - start = pre.length + 1 + post.length := by
        rw [← hlen, hs]
        simp
        omega
      have hfind : findChar s ',' start = some (start + pre.length) := by
        simp only [findChar, hidx]
        rw [if_pos (by omega)]
      have hsplit : (s.drop start).splitOn ','
          = pre :: (post.splitOn ',') := by
        rw [hs]
        apply List.splitOnP_first
        · intro y hy
          simpa using hpre y hy
        · simp
      have htag : substr s start (start + pre.length - start) = pre := by
        simp only [substr, hs, Nat.add_sub_cancel_left]
        simp
      have hdrop : s.drop (start + pre.length + 1) = post := by
        have : s.drop (start + pre.length + 1) = (s.drop start).drop (pre.length + 1) := by
          rw [List.drop_drop, Nat.add_assoc]
        rw [this, hs]
        simp
      have hrec := ih (start + pre.length + 1) (tags ++ [String.mk pre]) (by omega) (by omega)
      simp only [tagLoop, hfind, htag, hrec, hdrop, hsplit, List.map_cons,
        List.append_assoc, List.singleton_append]

/-- The tag loop finishes within the steps allotted, and its result is the field
split at every comma. -/
theorem parseTags_eq_splitOn (t : String) :
    parseTags t = some ((t.data.splitOn ',').map String.mk) := by
  have h := tagLoop_eq_splitOn (t.data.length + 1) t.data 0 [] (Nat.zero_le _) (by omega)
  simpa [parseTags] using h

theorem splitOn_ne_nil (s : List Char) : s.splitOn ',' ≠ [] :=
  List.splitOnP_ne_nil _ s

theorem splitOn_length (s : List Char) :
    (s.splitOn ',').length = s.count ',' + 1 := by
  induction s with
  | nil => simp [List.splitOn]
  | cons c s ih =>
    have hcons := List.splitOnP_cons (fun x => x == ',') c s
    simp only [List.splitOn] at ih ⊢
    rw [hcons]
    by_cases hc : c = ','
    · subst hc
      simp [ih]
    · have hne : (c == ',') = false := by simpa using hc
      have hne2 : ¬ (',' = c) := fun h => hc h.symm
      rw [hne]
      simp only [Bool.false_eq_true, if_false, List.length_modifyHead, ih]
      simp [List.count_cons, hne2]

theorem splitOn_no_comma (s : List Char) : ∀ l ∈ s.splitOn ',', ',' ∉ l := by
  induction s with
  | nil => simp [List.splitOn]
  | cons c s ih =>
    have hcons := List.splitOnP_cons (fun x => x == ',') c s
    simp only [List.splitOn] at ih ⊢
    rw [hcons]
    by_cases hc : c = ','
    · subst hc
      intro l hl
      simp only [beq_self_eq_true, if_true, List.mem_cons] at hl
      rcases hl with rfl | hl
      · simp
      · exact ih l hl
    · have hne : (c == ',') = false := by simpa using hc
      rw [hne]
      simp only [Bool.false_eq_true, if_false]
      cases hsp : List.splitOnP (fun x => x == ',') s with
      | nil => exact absurd hsp (List.splitOnP_ne_nil _ s)
      | cons h t =>
        rw [hsp] at ih
        intro l hl
        simp only [List.modifyHead_cons, List.mem_cons] at hl
        rcases hl with rfl | hl
        · intro hmem
          rcases List.mem_cons.mp hmem with hcc | hmem2
          · exact hc hcc.symm
          · exact ih h (List.mem_cons_self h t) hmem2
        · exact ih l (List.mem_cons_of_mem h hl)

/-- C16: for every tags field the tag loop finishes (within one step per character
and one more) and yields a non-empty list of tags, one more than the field has
commas, none holding a comma, which joined with commas give back the field; the
empty field yields the single empty tag. -/
theorem parseTags_splits_at_commas (t : String) :
    (∃ tags, parseTags t = some tags ∧
      tags ≠ [] ∧
      tags.length = t.data.count ',' + 1 ∧
      (∀ tag ∈ tags, ',' ∉ tag.data) ∧
      [','].intercalate (tags.map String.data) = t.data) ∧
    parseTags "" = some [""] := by
  refine ⟨⟨(t.data.splitOn ',').map String.mk, parseTags_eq_splitOn t, ?_, ?_, ?_, ?_⟩, ?_⟩
  · intro h
    exact splitOn_ne_nil t.data (List.map_eq_nil_iff.mp h)
  · rw [List.length_map, splitOn_length]
  · intro tag htag
    obtain ⟨l, hl, rfl⟩ := List.mem_map.mp htag
    exact splitOn_no_comma t.data l hl
  · rw [List.map_map]
    have : (String.data ∘ String.mk) = id := rfl
    rw [this, List.map_id]
    exact List.intercalate_splitOn t.data ','
  · rfl

/-! ## Bulk import: the choice of the class -/

theorem findStr_isSome_iff (needle s : List Char) :
    (findStr needle s).isSome = true ↔ needle <:+: s := by
  induction s with
  | nil =>
    cases needle with
    | nil => simp [findStr]
    | cons a needle => simp [findStr, List.isPrefixOf]
  | cons c t ih =>
    rw [List.infix_cons_iff, ← ih, ← List.isPrefixOf_iff_prefix]
    by_cases hp : needle.isPrefixOf (c :: t) = true
    · simp [findStr, hp]
    · simp [findStr, hp]

theorem strFind_isSome_iff (s marker : String) :
    (strFind s marker).isSome = true ↔ Contains s marker :=
  findStr_isSome_iff marker.data s.data

theorem classify_eq_none_iff (name : String) :
    classify name = none ↔ ¬ Recognised name := by
  unfold classify Recognised
  simp only [← strFind_isSome_iff]
  constructor
  · intro h
    split_ifs at h with h1 h2 h3 h4 h5
    simp [h1, h2, h3, h4, h5]
  · intro h
    simp only [not_or] at h
    obtain ⟨h1, h2, h3, h4, h5⟩ := h
    simp [h1, h2, h3, h4, h5]

/-- C17: the class is picked by the first marker, in the order `.pdf`, `.jpg`,
`.txt`, `.mp4`, `.mp3`, that occurs anywhere in the name, and no object is created
when none occurs; `report.txtfinal` is a TextDocument, and `song.mp3.pdf`, which
holds two markers, is a PDFDocument. -/
theorem classify_by_first_marker (name : String) :
    (Contains name ".pdf" → classify name = some FileClass.PDFDocument) ∧
    (¬ Contains name ".pdf" → Contains name ".jpg" →
      classify name = some FileClass.ImageFile) ∧
    (¬ Contains name ".pdf" → ¬ Contains name ".jpg" → Contains name ".txt" →
      classify name = some FileClass.TextDocument) ∧
    (¬ Contains name ".pdf" → ¬ Contains name ".jpg" → ¬ Contains name ".txt" →
      Contains name ".mp4" → classify name = some FileClass.VideoFile) ∧
    (¬ Contains name ".pdf" → ¬ Contains name ".jpg" → ¬ Contains name ".txt" →
      ¬ Contains name ".mp4" → Contains name ".mp3" →
      classify name = some FileClass.AudioFile) ∧
    (¬ Contains name ".pdf" → ¬ Contains name ".jpg" → ¬ Contains name ".txt" →
      ¬ Contains name ".mp4" → ¬ Contains name ".mp3" → classify name = none) ∧
    classify "report.txtfinal" = some FileClass.TextDocument ∧
    classify "song.mp3.pdf" = some FileClass.PDFDocument := by
  unfold classify
  simp only [← strFind_isSome_iff]
  refine ⟨?_, ?_, ?_, ?_, ?_, ?_, by decide, by decide⟩
  · intro h1
    simp [h1]
  · intro h1 h2
    simp [h1, h2]
  · intro h1 h2 h3
    simp [h1, h2, h3]
  · intro h1 h2 h3 h4
    simp [h1, h2, h3, h4]
  · intro h1 h2 h3 h4 h5
    simp [h1, h2, h3, h4, h5]
  · intro h1 h2 h3 h4 h5
    simp [h1, h2, h3, h4, h5]

/-- The statement of C17 at the name `clip.mp4.mp3`, which holds the last two
markers and no other. -/
theorem classify_by_first_marker_witness :
    classify "clip.mp4.mp3" = some FileClass.VideoFile :=
  (classify_by_first_marker "clip.mp4.mp3").2.2.2.1 (by decide) (by decide) (by decide)
    (by decide)

/-! ## Bulk import: reading the fields -/

theorem getline_field (field rest : List Char) (delim : Char) (h : delim ∉ field) :
    getline (field ++ delim :: rest) delim = (String.mk field, rest) := by
  have hp : ∀ a ∈ field, (a != delim) = true := by
    intro a ha
    simp only [bne_iff_ne, ne_eq]
    intro heq
    exact h (heq ▸ ha)
  simp [getline, List.takeWhile_append_of_pos hp, List.dropWhile_append_of_pos hp]

theorem getline_last (field : List Char) (delim : Char) (h : delim ∉ field) :
    getline field delim = (String.mk field, []) := by
  have hp : ∀ a ∈ field, (a != delim) = true := by
    intro a ha
    simp only [bne_iff_ne, ne_eq]
    intro heq
    exact h (heq ▸ ha)
  have h1 : field.takeWhile (fun c => c != delim) = field :=
    List.takeWhile_eq_self_iff.mpr hp
  have h2 : field.dropWhile (fun c => c != delim) = [] :=
    List.dropWhile_eq_nil_iff.mpr hp
  simp [getline, h1, h2]

theorem readFields_five (name path date size tail : List Char)
    (hname : ',' ∉ name) (hpath : ',' ∉ path) (hdate : ',' ∉ date) (hsize : ',' ∉ size)
    (htail : '\n' ∉ tail) :
    readFields (String.mk (name ++ ',' :: (path ++ ',' :: (date ++ ',' :: (size ++ ',' :: tail)))))
      = ⟨String.mk name, String.mk path, String.mk date, String.mk size, String.mk tail⟩ := by
  simp only [readFields, getline_field _ _ _ hname, getline_field _ _ _ hpath,
    getline_field _ _ _ hdate, getline_field _ _ _ hsize, getline_last _ _ htail]

/-! ## Bulk import: the size -/

theorem digit_facts (c : Char) (h : c.isDigit = true) :
    isspace c = false ∧ c ≠ '-' ∧ c ≠ '+' ∧ c ≠ ',' ∧ c ≠ 'K' ∧ c ≠ 'M' := by
  refine ⟨?_, ?_, ?_, ?_, ?_, ?_⟩
  · cases hs : isspace c
    · rfl
    · exfalso
      have : c = ' ' ∨ c = '\t' ∨ c = '\n' ∨ c = '\x0b' ∨ c = '\x0c' ∨ c = '\r' := by
        simpa [isspace, or_assoc] using hs
      rcases this with rfl | rfl | rfl | rfl | rfl | rfl <;> exact absurd h (by decide)
  all_goals
    intro heq
    subst heq
    exact absurd h (by decide)

theorem digitsValue_eq_ofDigits (ds : List Char) :
    digitsValue ds = Nat.ofDigits 10 (ds.reverse.map (fun c => c.toNat - 48)) := by
  induction ds using List.reverseRecOn with
  | nil => simp [digitsValue]
  | append_singleton ds c ih =>
    have hstep : digitsValue (ds ++ [c]) = 10 * digitsValue ds + (c.toNat - 48) := by
      simp [digitsValue, List.foldl_append]
    rw [hstep, ih]
    simp [Nat.ofDigits_cons]
    omega

theorem stoi_digits (ds : List Char) (hne : ds ≠ [])
    (hd : ∀ c ∈ ds, c.isDigit = true) :
    stoi ds = if (digitsValue ds : Int) > INT_MAX then Except.error ImportError.outOfRange
      else Except.ok (digitsValue ds : Int) := by
  cases ds with
  | nil => exact absurd rfl hne
  | cons c t =>
    obtain ⟨hsp, hminus, hplus, _, _, _⟩ := digit_facts c (hd c (List.mem_cons_self c t))
    have h1 : (c :: t).dropWhile isspace = c :: t := by
      simp [List.dropWhile_cons, hsp]
    have h2 : (c :: t).takeWhile Char.isDigit = c :: t :=
      List.takeWhile_eq_self_iff.mpr hd
    have hmin : ¬ ((digitsValue (c :: t) : Int) < INT_MIN) := by
      have : (0 : Int) ≤ (digitsValue (c :: t) : Int) := Int.ofNat_nonneg _
      have hneg : INT_MIN < 0 := by decide
      omega
    have hneg : (some c == some '-') = false := by simp [hminus]
    have hpos : (some c == some '+') = false := by simp [hplus]
    simp only [stoi, h1, List.head?_cons, hneg, hpos, Bool.or_self, Bool.false_eq_true,
      if_false, h2, List.isEmpty_cons, hmin, false_or]

theorem toSizeT_of_nat (n : Nat) (h : (n : Int) ≤ INT_MAX) : toSizeT (n : Int) = n := by
  have hlt : (n : Int) < (SIZE_MAX : Int) + 1 := by
    have : INT_MAX < (SIZE_MAX : Int) + 1 := by decide
    omega
  have hmod : (n : Int) % ((SIZE_MAX : Int) + 1) = n :=
    Int.emod_eq_of_lt (Int.ofNat_nonneg n) hlt
  simp [toSizeT, hmod]

theorem findStr_first (a : Char) (t pre post : List Char) (h : a ∉ pre) :
    findStr (a :: t) (pre ++ (a :: t ++ post)) = some pre.length := by
  induction pre with
  | nil =>
    have hp : (a :: t).isPrefixOf (a :: t ++ post) = true :=
      List.isPrefixOf_iff_prefix.mpr (List.prefix_append _ _)
    simp only [List.nil_append, List.length_nil]
    rw [List.cons_append] at hp ⊢
    simp [findStr, hp]
  | cons c pre ih =>
    have hc : c ≠ a := fun heq => h (heq ▸ List.mem_cons_self c pre)
    have hmem : a ∉ pre := fun hm => h (List.mem_cons_of_mem c hm)
    have hp : (a :: t).isPrefixOf (c :: (pre ++ (a :: t ++ post))) = false := by
      simp [List.isPrefixOf, Ne.symm hc]
    rw [List.cons_append]
    simp only [findStr, hp, Bool.false_eq_true, if_false, ih hmem, Option.map_some',
      List.length_cons]

theorem findStr_absent (a : Char) (t s : List Char) (h : a ∉ s) :
    findStr (a :: t) s = none := by
  rw [← Option.not_isSome_iff_eq_none, findStr_isSome_iff]
  intro hocc
  exact h (hocc.subset (List.mem_cons_self a t))

theorem isDecimal_value (ds : List Char) (n : Nat) (h : IsDecimal ds n) :
    digitsValue ds = n := by
  rw [digitsValue_eq_ofDigits]
  exact h.2.2

theorem stoi_decimal (ds : List Char) (n : Nat) (h : IsDecimal ds n)
    (hn : (n : Int) ≤ INT_MAX) : stoi ds = Except.ok (n : Int) := by
  rw [stoi_digits ds h.1 h.2.1, isDecimal_value ds n h]
  rw [if_neg (by omega)]

theorem stoi_decimal_large (ds : List Char) (n : Nat) (h : IsDecimal ds n)
    (hn : INT_MAX < (n : Int)) : stoi ds = Except.error ImportError.outOfRange := by
  rw [stoi_digits ds h.1 h.2.1, isDecimal_value ds n h]
  rw [if_pos (by omega)]

theorem not_mem_of_digits (ds : List Char) (hd : ∀ c ∈ ds, c.isDigit = true) :
    ',' ∉ ds ∧ 'K' ∉ ds ∧ 'M' ∉ ds := by
  refine ⟨?_, ?_, ?_⟩
  · intro hm
    exact (digit_facts _ (hd _ hm)).2.2.2.1 rfl
  · intro hm
    exact (digit_facts _ (hd _ hm)).2.2.2.2.1 rfl
  · intro hm
    exact (digit_facts _ (hd _ hm)).2.2.2.2.2 rfl

theorem parseSize_KB (ds : List Char) (n : Nat) (h : IsDecimal ds n)
    (hn : (n : Int) ≤ INT_MAX) :
    parseSize (String.mk (ds ++ ['K', 'B'])) = Except.ok (some n) := by
  obtain ⟨_, hK, _⟩ := not_mem_of_digits ds h.2.1
  have hfind : strFind (String.mk (ds ++ ['K', 'B'])) "KB" = some ds.length := by
    have := findStr_first 'K' ['B'] ds [] hK
    simpa [strFind] using this
  have hsub : substr (ds ++ ['K', 'B']) 0 ds.length = ds := by
    simp [substr]
  simp only [parseSize, hfind, hsub, stoi_decimal ds n h hn, toSizeT_of_nat n hn]

theorem parseSize_KB_large (ds : List Char) (n : Nat) (h : IsDecimal ds n)
    (hn : INT_MAX < (n : Int)) :
    parseSize (String.mk (ds ++ ['K', 'B'])) = Except.error ImportError.outOfRange := by
  obtain ⟨_, hK, _⟩ := not_mem_of_digits ds h.2.1
  have hfind : strFind (String.mk (ds ++ ['K', 'B'])) "KB" = some ds.length := by
    have := findStr_first 'K' ['B'] ds [] hK
    simpa [strFind] using this
  have hsub : substr (ds ++ ['K', 'B']) 0 ds.length = ds := by
    simp [substr]
  simp only [parseSize, hfind, hsub, stoi_decimal_large ds n h hn]

theorem wrapInt_of_int (v : Int) (h1 : INT_MIN ≤ v) (h2 : v ≤ INT_MAX) : wrapInt v = v := by
  have hmin : INT_MIN = -2147483648 := by decide
  have hmax : INT_MAX = 2147483647 := by decide
  have hpow : (2 : Int) ^ 32 = 4294967296 := by norm_num
  rw [hmin] at h1
  rw [hmax] at h2
  have hmod : (v - -2147483648) % 4294967296 = v - -2147483648 :=
    Int.emod_eq_of_lt (by omega) (by omega)
  simp only [wrapInt, hmin, hpow, hmod]
  omega

theorem parseSize_MB_wrapped (ds : List Char) (n : Nat) (h : IsDecimal ds n)
    (hn : (n : Int) ≤ INT_MAX) :
    parseSize (String.mk (ds ++ ['M', 'B']))
      = Except.ok (some (toSizeT (wrapInt ((n : Int) * 1024)))) := by
  obtain ⟨_, hK, hM⟩ := not_mem_of_digits ds h.2.1
  have hnoK : strFind (String.mk (ds ++ ['M', 'B'])) "KB" = none := by
    apply findStr_absent
    intro hm
    rcases List.mem_append.mp hm with hm | hm
    · exact hK hm
    · simp at hm
  have hfind : strFind (String.mk (ds ++ ['M', 'B'])) "MB" = some ds.length := by
    have := findStr_first 'M' ['B'] ds [] hM
    simpa [strFind] using this
  have hsub : substr (ds ++ ['M', 'B']) 0 ds.length = ds := by
    simp [substr]
  simp only [parseSize, hnoK, hfind, hsub, stoi_decimal ds n h hn]

theorem parseSize_MB (ds : List Char) (n : Nat) (h : IsDecimal ds n)
    (hn : (n : Int) * 1024 ≤ INT_MAX) :
    parseSize (String.mk (ds ++ ['M', 'B'])) = Except.ok (some (n * 1024)) := by
  have hn0 : (0 : Int) ≤ (n : Int) := Int.ofNat_nonneg n
  have hneg : INT_MIN < 0 := by decide
  have hn1 : (n : Int) ≤ INT_MAX := by omega
  have hcast : ((n * 1024 : Nat) : Int) = (n : Int) * 1024 := by push_cast; rfl
  have hwrap : wrapInt ((n : Int) * 1024) = (n : Int) * 1024 :=
    wrapInt_of_int _ (by omega) hn
  have hsz : toSizeT ((n : Int) * 1024) = n * 1024 := by
    rw [← hcast]
    exact toSizeT_of_nat (n * 1024) (by rw [hcast]; exact hn)
  rw [parseSize_MB_wrapped ds n h hn1, hwrap, hsz]

/-! ## Bulk import: one line -/

theorem parseLine_record (addr sizeInit : Nat) (line : String) (size : Option Nat)
    (cls : FileClass)
    (hsize : parseSize (readFields line).sizeStr = Except.ok size)
    (hcls : classify (readFields line).name = some cls) :
    parseLine addr sizeInit line
      = Except.ok (some ⟨addr, cls, (readFields line).name, (readFields line).path,
          (readFields line).creationDate, "", size.getD sizeInit,
          ((readFields line).tagsStr.data.splitOn ',').map String.mk⟩) := by
  simp only [parseLine, hsize, parseTags_eq_splitOn, hcls]

theorem parseLine_skip (addr sizeInit : Nat) (line : String) (size : Option Nat)
    (hsize : parseSize (readFields line).sizeStr = Except.ok size)
    (hcls : classify (readFields line).name = none) :
    parseLine addr sizeInit line = Except.ok none := by
  simp only [parseLine, hsize, parseTags_eq_splitOn, hcls]

theorem parseLine_error (addr sizeInit : Nat) (line : String) (e : ImportError)
    (hsize : parseSize (readFields line).sizeStr = Except.error e) :
    parseLine addr sizeInit line = Except.error e := by
  simp only [parseLine, hsize]

theorem string_eq_mk (line : String) (l : List Char) (h : line.data = l) :
    line = String.mk l := by
  cases line
  simp_all

theorem isDecimal_three_milliard : IsDecimal "3000000000".data 3000000000 := by
  refine ⟨by decide, by decide, ?_⟩
  simp [Nat.ofDigits]

theorem parseLine_five_fields (addr sizeInit : Nat) (name path date size tail : List Char)
    (n : Nat) (cls : FileClass)
    (hname : ',' ∉ name) (hpath : ',' ∉ path) (hdate : ',' ∉ date) (hsize : ',' ∉ size)
    (htail : '\n' ∉ tail)
    (hparse : parseSize (String.mk size) = Except.ok (some n))
    (hcls : classify (String.mk name) = some cls) :
    parseLine addr sizeInit
        (String.mk (name ++ ',' :: (path ++ ',' :: (date ++ ',' :: (size ++ ',' :: tail)))))
      = Except.ok (some ⟨addr, cls, String.mk name, String.mk path, String.mk date, "", n,
          (tail.splitOn ',').map String.mk⟩) := by
  have hf := readFields_five name path date size tail hname hpath hdate hsize htail
  have h := parseLine_record addr sizeInit
    (String.mk (name ++ ',' :: (path ++ ',' :: (date ++ ',' :: (size ++ ',' :: tail)))))
    (some n) cls (by rw [hf]; exact hparse) (by rw [hf]; exact hcls)
  rw [h, hf]
  rfl

theorem not_comma_size (ds unit : List Char) (hd : ∀ c ∈ ds, c.isDigit = true)
    (hunit : ',' ∉ unit) : ',' ∉ ds ++ unit := by
  intro hm
  rcases List.mem_append.mp hm with hm | hm
  · exact (not_mem_of_digits ds hd).1 hm
  · exact hunit hm

/-- C14, as stated, fails: the line has the form `name,path,creationDate,<n>KB,tail`
with the recognised name `Report.pdf` and `n = 3000000000`, and `stoi` throws
`out_of_range` on it, so that no record is produced. -/
theorem parseLine_kb_beyond_int_throws :
    IsDecimal "3000000000".data 3000000000 ∧
    Recognised "Report.pdf" ∧
    parseLine 7 0 "Report.pdf,C:/Documents,10.05.2023,3000000000KB,work,project"
      = Except.error ImportError.outOfRange :=
  ⟨isDecimal_three_milliard, by decide, by decide⟩

/-- C14, amended: for a line `name,path,creationDate,<n>KB,tail` in which the first
three fields hold no comma, the name holds a recognised marker and `n` is a decimal
integer not above `INT_MAX` (the line, being a line, holds no newline), the loop
body creates exactly one record: its name,
path and creation date are the three fields, its size is `n`, its modification date
is empty, its tags are the rest of the line after the fourth comma split at every
comma, and its class is the one the name selects. The line
`Report.pdf,C:/Documents,10.05.2023,200KB,work,project` gives a PDFDocument named
`Report.pdf` of size 200 with the tags `work` and `project`. This holds whatever
the local `size` held before. -/
theorem parseLine_kb_line (addr sizeInit : Nat) (name path date ds tail : List Char)
    (n : Nat)
    (hname : ',' ∉ name) (hpath : ',' ∉ path) (hdate : ',' ∉ date)
    (hdec : IsDecimal ds n) (hn : (n : Int) ≤ INT_MAX) (htail : '\n' ∉ tail)
    (hrec : Recognised (String.mk name)) :
    (∃ cls, classify (String.mk name) = some cls ∧
      parseLine addr sizeInit
          (String.mk
            (name ++ ',' :: path ++ ',' :: date ++ ',' :: ds ++ 'K' :: 'B' :: ',' :: tail))
        = Except.ok (some ⟨addr, cls, String.mk name, String.mk path, String.mk date, "", n,
            (tail.splitOn ',').map String.mk⟩)) ∧
    parseLine addr sizeInit "Report.pdf,C:/Documents,10.05.2023,200KB,work,project"
      = Except.ok (some ⟨addr, FileClass.PDFDocument, "Report.pdf", "C:/Documents",
          "10.05.2023", "", 200, ["work", "project"]⟩) := by
  constructor
  · cases hcls : classify (String.mk name) with
    | none => exact absurd hrec ((classify_eq_none_iff _).mp hcls)
    | some cls =>
      refine ⟨cls, rfl, ?_⟩
      have hline : name ++ ',' :: path ++ ',' :: date ++ ',' :: ds ++ 'K' :: 'B' :: ',' :: tail
          = name ++ ',' :: (path ++ ',' :: (date ++ ',' :: ((ds ++ ['K', 'B']) ++ ',' :: tail))) := by
        simp [List.append_assoc]
      rw [hline]
      exact parseLine_five_fields addr sizeInit name path date (ds ++ ['K', 'B']) tail n cls
        hname hpath hdate (not_comma_size ds _ hdec.2.1 (by decide)) htail
        (parseSize_KB ds n hdec hn) hcls
  · rfl

/-- The amended C14 at the line `Notes.txt,C:/Documents,01.01.2021,50KB,work,personal`
and the address 3: the record is the third of the sample catalog. -/
theorem parseLine_kb_line_witness :
    ∃ cls, classify "Notes.txt" = some cls ∧
      parseLine 3 0 "Notes.txt,C:/Documents,01.01.2021,50KB,work,personal"
        = Except.ok (some ⟨3, cls, "Notes.txt", "C:/Documents", "01.01.2021", "", 50,
            ["work", "personal"]⟩) :=
  (parseLine_kb_line 3 0 "Notes.txt".data "C:/Documents".data "01.01.2021".data "50".data
    "work,personal".data 50 (by decide) (by decide) (by decide)
    ⟨by decide, by decide, by simp [Nat.ofDigits]⟩ (by decide) (by decide) (by decide)).1

/-- C15, as stated, fails: the size field of the line is the decimal integer
`3000000000` followed by `MB`, and `stoi` throws `out_of_range` on it; no record
of size `3000000000 × 1024` is produced. -/
theorem parseLine_mb_beyond_int_throws :
    IsDecimal "3000000000".data 3000000000 ∧
    (readFields "Video.mp4,C:/Videos,20.02.2020,3000000000MB,work").sizeStr
      = String.mk ("3000000000".data ++ ['M', 'B']) ∧
    parseLine 7 0 "Video.mp4,C:/Videos,20.02.2020,3000000000MB,work"
      = Except.error ImportError.outOfRange :=
  ⟨isDecimal_three_milliard, by decide, by decide⟩

/-- C15, amended: for a line with a recognised name whose size field is a decimal
integer `n` followed by `KB`, with `n` not above `INT_MAX`, the record has size `n`;
when the size field is `n` followed by `MB`, with `n × 1024` not above `INT_MAX`,
the record has size `n × 1024`; the line `Video.mp4,C:/Videos,20.02.2020,5MB,work`
gives size 5120. This holds whatever the local `size` held before. -/
theorem parseLine_size_in_kilobytes (addr sizeInit : Nat) (line : String) (ds : List Char)
    (n : Nat) (hdec : IsDecimal ds n) (hrec : Recognised (readFields line).name) :
    ((readFields line).sizeStr = String.mk (ds ++ ['K', 'B']) → (n : Int) ≤ INT_MAX →
      ∃ r, parseLine addr sizeInit line = Except.ok (some r) ∧ r.size = n) ∧
    ((readFields line).sizeStr = String.mk (ds ++ ['M', 'B']) → (n : Int) * 1024 ≤ INT_MAX →
      ∃ r, parseLine addr sizeInit line = Except.ok (some r) ∧ r.size = n * 1024) ∧
    (∃ r, parseLine addr sizeInit "Video.mp4,C:/Videos,20.02.2020,5MB,work"
        = Except.ok (some r) ∧
      r.size = 5120) := by
  cases hcls : classify (readFields line).name with
  | none => exact absurd hrec ((classify_eq_none_iff _).mp hcls)
  | some cls =>
    refine ⟨?_, ?_, ⟨_, rfl, rfl⟩⟩
    · intro hfield hn
      have hsz := parseSize_KB ds n hdec hn
      rw [← hfield] at hsz
      exact ⟨_, parseLine_record addr sizeInit line (some n) cls hsz hcls, rfl⟩
    · intro hfield hn
      have hsz := parseSize_MB ds n hdec hn
      rw [← hfield] at hsz
      exact ⟨_, parseLine_record addr sizeInit line (some (n * 1024)) cls hsz hcls, rfl⟩

/-- The amended C15 at the line `Podcast.mp3,C:/Music,05.04.2021,97MB,project`: the
record has size `97 × 1024`. -/
theorem parseLine_size_in_kilobytes_witness :
    ∃ r, parseLine 5 0 "Podcast.mp3,C:/Music,05.04.2021,97MB,project" = Except.ok (some r) ∧
      r.size = 97 * 1024 :=
  (parseLine_size_in_kilobytes 5 0 "Podcast.mp3,C:/Music,05.04.2021,97MB,project" "97".data 97
    ⟨by decide, by decide, by simp [Nat.ofDigits]⟩ (by decide)).2.1 (by decide) (by decide)


/-! ## Bulk import: the loop over the lines -/

theorem importLines_skip (newAddr sizeInit : Nat → Nat) (i : Nat) (line : String)
    (rest : List String) (m : FileManager)
    (h : parseLine (newAddr i) (sizeInit i) line = Except.ok none) :
    importLines newAddr sizeInit i (line :: rest) m
      = importLines newAddr sizeInit (i + 1) rest m := by
  simp only [importLines, h]

theorem importLines_add (newAddr sizeInit : Nat → Nat) (i : Nat) (line : String)
    (rest : List String) (m : FileManager) (f : File)
    (h : parseLine (newAddr i) (sizeInit i) line = Except.ok (some f)) :
    importLines newAddr sizeInit i (line :: rest) m
      = importLines newAddr sizeInit (i + 1) rest (addFile m f) := by
  simp only [importLines, h]

theorem importLines_error (newAddr sizeInit : Nat → Nat) (i : Nat) (line : String)
    (rest : List String) (m : FileManager) (e : ImportError)
    (h : parseLine (newAddr i) (sizeInit i) line = Except.error e) :
    importLines newAddr sizeInit i (line :: rest) m = Except.error e := by
  simp only [importLines, h]

/-- C18, as stated, fails: the name `notes.doc` holds none of the markers, the size
field is `KB` with nothing before it, and `stoi` throws `invalid_argument`: the
line is not skipped, and the import of a file holding it stops before the next
line. -/
theorem parseLine_unrecognised_name_still_throws :
    ¬ Recognised (readFields "notes.doc,C:/Documents,01.01.2020,KB,work").name ∧
    parseLine 7 0 "notes.doc,C:/Documents,01.01.2020,KB,work"
      = Except.error ImportError.invalidArgument ∧
    addFilesFromTextFile (fun i => 100 + i) (fun _ => 0) sampleManager
        ["notes.doc,C:/Documents,01.01.2020,KB,work",
         "New.txt,C:/Documents,01.01.2020,5KB,work"]
      = Except.error ImportError.invalidArgument := by
  refine ⟨by decide, by decide, ?_⟩
  rfl

/-- C18, amended: for a line whose name field holds none of the five markers, the
loop body creates no record and raises no error, leaving both vectors as they were
and going on with the next line, exactly when `std::stoi` throws no exception
during the parsing of its size field; otherwise the exception of `stoi` ends the
import. No exception is thrown, in particular, when the size field holds neither
`KB` nor `MB`, and when it is a decimal integer not above `INT_MAX` followed by
`KB` or by `MB` (whatever the product by 1024 is). -/
theorem parseLine_unrecognised_name_skipped (addr sizeInit : Nat) (line : String)
    (hname : ¬ Recognised (readFields line).name) :
    (parseLine addr sizeInit line = Except.ok none ↔
      ∃ size, parseSize (readFields line).sizeStr = Except.ok size) ∧
    (∀ e, parseLine addr sizeInit line = Except.error e ↔
      parseSize (readFields line).sizeStr = Except.error e) ∧
    ((∃ size, parseSize (readFields line).sizeStr = Except.ok size) →
      ∀ (newAddr init : Nat → Nat) (i : Nat) (rest : List String) (m : FileManager),
        importLines newAddr init i (line :: rest) m
          = importLines newAddr init (i + 1) rest m) ∧
    (¬ Contains (readFields line).sizeStr "KB" → ¬ Contains (readFields line).sizeStr "MB" →
      parseLine addr sizeInit line = Except.ok none) ∧
    (∀ ds n, IsDecimal ds n → (n : Int) ≤ INT_MAX →
      ((readFields line).sizeStr = String.mk (ds ++ ['K', 'B']) ∨
        (readFields line).sizeStr = String.mk (ds ++ ['M', 'B'])) →
      parseLine addr sizeInit line = Except.ok none) := by
  have hcls : classify (readFields line).name = none := (classify_eq_none_iff _).mpr hname
  refine ⟨?_, ?_, ?_, ?_, ?_⟩
  · constructor
    · intro h
      cases hsz : parseSize (readFields line).sizeStr with
      | error e =>
        rw [parseLine_error addr sizeInit line e hsz] at h
        cases h
      | ok size => exact ⟨size, rfl⟩
    · rintro ⟨size, hsz⟩
      exact parseLine_skip addr sizeInit line size hsz hcls
  · intro e
    constructor
    · intro h
      cases hsz : parseSize (readFields line).sizeStr with
      | error e2 =>
        rw [parseLine_error addr sizeInit line e2 hsz] at h
        cases h
        rfl
      | ok size =>
        rw [parseLine_skip addr sizeInit line size hsz hcls] at h
        cases h
    · intro hsz
      exact parseLine_error addr sizeInit line e hsz
  · rintro ⟨size, hsz⟩ newAddr init i rest m
    exact importLines_skip newAddr init i line rest m
      (parseLine_skip (newAddr i) (init i) line size hsz hcls)
  · intro hkb hmb
    have h1 : strFind (readFields line).sizeStr "KB" = none := by
      rw [← Option.not_isSome_iff_eq_none, strFind_isSome_iff]
      exact hkb
    have h2 : strFind (readFields line).sizeStr "MB" = none := by
      rw [← Option.not_isSome_iff_eq_none, strFind_isSome_iff]
      exact hmb
    apply parseLine_skip addr sizeInit line none _ hcls
    simp only [parseSize, h1, h2]
  · intro ds n hdec hn hfield
    rcases hfield with hfield | hfield
    · have hsz := parseSize_KB ds n hdec hn
      rw [← hfield] at hsz
      exact parseLine_skip addr sizeInit line (some n) hsz hcls
    · have hsz := parseSize_MB_wrapped ds n hdec hn
      rw [← hfield] at hsz
      exact parseLine_skip addr sizeInit line _ hsz hcls

/-- The amended C18 at the line `notes.doc,C:/Documents,01.01.2020,2097152MB,work`,
whose product by 1024 is not an `int`, followed by a line that yields a record: the
first line is skipped and the import goes on. -/
theorem parseLine_unrecognised_name_skipped_witness :
    parseLine 7 0 "notes.doc,C:/Documents,01.01.2020,2097152MB,work" = Except.ok none ∧
    importLines (fun i => 100 + i) (fun _ => 0) 0
        ["notes.doc,C:/Documents,01.01.2020,2097152MB,work",
         "New.txt,C:/Documents,01.01.2020,5KB,work"] emptyManager
      = importLines (fun i => 100 + i) (fun _ => 0) 1
          ["New.txt,C:/Documents,01.01.2020,5KB,work"] emptyManager :=
  ⟨(parseLine_unrecognised_name_skipped 7 0
      "notes.doc,C:/Documents,01.01.2020,2097152MB,work" (by decide)).2.2.2.2
      "2097152".data 2097152 ⟨by decide, by decide, by simp [Nat.ofDigits]⟩
      (by decide) (Or.inr (by decide)),
   (parseLine_unrecognised_name_skipped 7 0
      "notes.doc,C:/Documents,01.01.2020,2097152MB,work" (by decide)).2.2.1
      ⟨_, rfl⟩ (fun i => 100 + i) (fun _ => 0) 0
      ["New.txt,C:/Documents,01.01.2020,5KB,work"] emptyManager⟩

theorem nameField_eq (line : String) : nameField line = (readFields line).name := rfl

/-- What the loop body does on a line of the import format whose integer is at
most `INT_MAX`: nothing when the name is not recognised, and otherwise it creates
the record the specification gives for the line. -/
theorem parseLine_sized (p : LineParts) (n : Nat) (line : String)
    (hwf : p.WellFormed n) (hline : line.data = p.text) (hn : (n : Int) ≤ INT_MAX)
    (addr sizeInit : Nat) :
    nameField line = String.mk p.name ∧
    ((¬ Recognised (nameField line) ∧ parseLine addr sizeInit line = Except.ok none) ∨
     (Recognised (nameField line) ∧
        ∃ r, parseLine addr sizeInit line = Except.ok (some r) ∧ RecordOf p n r)) := by
  obtain ⟨hname, hpath, hdate, hdec, hunit, htail⟩ := hwf
  have hcomma : ',' ∉ p.digits ++ p.unit := by
    apply not_comma_size p.digits p.unit hdec.2.1
    rcases hunit with hu | hu <;> rw [hu] <;> decide
  have hl := string_eq_mk line _ hline
  have hf := readFields_five p.name p.path p.date (p.digits ++ p.unit) p.tail
    hname hpath hdate hcomma htail
  have hf2 : readFields line
      = ⟨String.mk p.name, String.mk p.path, String.mk p.date,
          String.mk (p.digits ++ p.unit), String.mk p.tail⟩ := by
    rw [hl]
    exact hf
  have hnf : nameField line = String.mk p.name := by
    rw [nameField_eq, hf2]
  have hsize : ∃ sz, parseSize (readFields line).sizeStr = Except.ok (some sz) ∧
      (p.unit = ['K', 'B'] → sz = n) ∧
      (p.unit = ['M', 'B'] → (n : Int) * 1024 ≤ INT_MAX → sz = n * 1024) := by
    rw [hf2]
    rcases hunit with hu | hu
    · refine ⟨n, ?_, fun _ => rfl, ?_⟩
      · rw [hu]
        exact parseSize_KB p.digits n hdec hn
      · intro hmb
        rw [hu] at hmb
        exact absurd hmb (by decide)
    · refine ⟨toSizeT (wrapInt ((n : Int) * 1024)), ?_, ?_, ?_⟩
      · rw [hu]
        exact parseSize_MB_wrapped p.digits n hdec hn
      · intro hkb
        rw [hu] at hkb
        exact absurd hkb (by decide)
      · intro _ hprod
        have h1 := parseSize_MB p.digits n hdec hprod
        have h2 := parseSize_MB_wrapped p.digits n hdec hn
        rw [h1] at h2
        exact (Option.some.inj (Except.ok.inj h2)).symm
  obtain ⟨sz, hsz, hkb, hmb⟩ := hsize
  refine ⟨hnf, ?_⟩
  cases hcls : classify (readFields line).name with
  | none =>
    left
    refine ⟨?_, parseLine_skip addr sizeInit line (some sz) hsz hcls⟩
    rw [nameField_eq]
    exact (classify_eq_none_iff _).mp hcls
  | some cls =>
    right
    constructor
    · rw [nameField_eq]
      by_contra hnot
      rw [(classify_eq_none_iff _).mpr hnot] at hcls
      cases hcls
    · refine ⟨_, parseLine_record addr sizeInit line (some sz) cls hsz hcls, ?_⟩
      rw [hf2] at hcls
      simp only [RecordOf, hf2, Option.getD_some]
      exact ⟨trivial, trivial, trivial, trivial, trivial, hcls, hkb, hmb⟩

/-- On lines of the import format whose integer is at most `INT_MAX`, the loop
returns the catalog with the records created appended, and these are, in order,
the records the specification gives for the lines with a recognised name. -/
theorem importLines_sized (newAddr sizeInit : Nat → Nat) (lines : List String) (i : Nat)
    (m : FileManager)
    (hwf : ∀ line ∈ lines, ∃ n, SizedLine line n ∧ (n : Int) ≤ INT_MAX) :
    importLines newAddr sizeInit i lines m
      = Except.ok ⟨m.files ++ importedRecords newAddr sizeInit i lines, m.archive⟩ ∧
    List.Forall₂
      (fun line r => ∃ (p : LineParts) (n : Nat),
        p.WellFormed n ∧ line.data = p.text ∧ RecordOf p n r)
      (lines.filter (fun l => decide (Recognised (nameField l))))
      (importedRecords newAddr sizeInit i lines) := by
  induction lines generalizing i m with
  | nil => simp [importLines, importedRecords]
  | cons line rest ih =>
    have hrest : ∀ l ∈ rest, ∃ n, SizedLine l n ∧ (n : Int) ≤ INT_MAX :=
      fun l hl => hwf l (List.mem_cons_of_mem line hl)
    obtain ⟨n, ⟨p, hp, hline⟩, hn⟩ := hwf line (List.mem_cons_self line rest)
    obtain ⟨_, hcase⟩ := parseLine_sized p n line hp hline hn (newAddr i) (sizeInit i)
    rcases hcase with ⟨hnot, hparse⟩ | ⟨hrec, r, hparse, hrecord⟩
    · obtain ⟨h1, h2⟩ := ih (i + 1) m hrest
      constructor
      · rw [importLines_skip newAddr sizeInit i line rest m hparse, h1]
        simp only [importedRecords, hparse]
      · simp only [importedRecords, hparse, List.filter_cons, hnot, decide_False,
          Bool.false_eq_true, if_false]
        exact h2
    · obtain ⟨h1, h2⟩ := ih (i + 1) (addFile m r) hrest
      constructor
      · rw [importLines_add newAddr sizeInit i line rest m r hparse, h1]
        simp only [importedRecords, hparse, addFile, List.append_assoc,
          List.singleton_append]
      · simp only [importedRecords, hparse, List.filter_cons, hrec, decide_True, if_true]
        exact List.Forall₂.cons ⟨p, n, hp, hline, hrecord⟩ h2

/-- C20, as stated, fails: the line is a well-formed line of the import format
(three leading fields, the integer `3000000000` followed by `KB`, a tags tail), and
the import of a file made of it throws `out_of_range` and returns no catalog. -/
theorem addFilesFromTextFile_throws_on_well_formed_line :
    WellFormedLine "Report.pdf,C:/Documents,10.05.2023,3000000000KB,work,project" ∧
    addFilesFromTextFile (fun i => 100 + i) (fun _ => 0) sampleManager
        ["Report.pdf,C:/Documents,10.05.2023,3000000000KB,work,project"]
      = Except.error ImportError.outOfRange :=
  ⟨⟨3000000000,
     ⟨"Report.pdf".data, "C:/Documents".data, "10.05.2023".data, "3000000000".data,
       ['K', 'B'], "work,project".data⟩,
     ⟨by decide, by decide, by decide, isDecimal_three_milliard, Or.inl rfl, by decide⟩,
     rfl⟩,
   rfl⟩

/-- C20, amended: for lines of the import format whose integer is at most
`INT_MAX`, `addFilesFromTextFile` returns, and only appends: the live vector
afterwards is the live vector before followed by the records created, the archive
is unchanged, and the records created are, in the order of the lines, those the
specification gives for the lines whose name field holds a recognised marker, one
for each, none for the other lines. -/
theorem addFilesFromTextFile_only_appends (newAddr sizeInit : Nat → Nat) (m : FileManager)
    (lines : List String)
    (hwf : ∀ line ∈ lines, ∃ n, SizedLine line n ∧ (n : Int) ≤ INT_MAX) :
    ∃ recs,
      addFilesFromTextFile newAddr sizeInit m lines
        = Except.ok ⟨m.files ++ recs, m.archive⟩ ∧
      List.Forall₂
        (fun line r => ∃ (p : LineParts) (n : Nat),
          p.WellFormed n ∧ line.data = p.text ∧ RecordOf p n r)
        (lines.filter (fun l => decide (Recognised (nameField l)))) recs ∧
      recs.length = (lines.filter (fun l => decide (Recognised (nameField l)))).length := by
  obtain ⟨h1, h2⟩ := importLines_sized newAddr sizeInit lines 0 m hwf
  exact ⟨importedRecords newAddr sizeInit 0 lines, h1, h2, h2.length_eq.symm⟩

/-- The amended C20 at the sample catalog and a file of two lines, the second with
a name that is not recognised: one record, `Report.pdf`, is appended. -/
theorem addFilesFromTextFile_only_appends_witness :
    ∃ recs,
      addFilesFromTextFile (fun i => 100 + i) (fun _ => 0) sampleManager
          ["Report.pdf,C:/Documents,10.05.2023,200KB,work,project",
           "readme.doc,C:/Documents,01.01.2020,3MB,work"]
        = Except.ok ⟨sampleManager.files ++ recs, sampleManager.archive⟩ ∧
      recs.length = 1 :=
  Exists.elim
    (addFilesFromTextFile_only_appends (fun i => 100 + i) (fun _ => 0) sampleManager
      ["Report.pdf,C:/Documents,10.05.2023,200KB,work,project",
       "readme.doc,C:/Documents,01.01.2020,3MB,work"]
      (by
        intro line hline
        rcases List.mem_cons.mp hline with rfl | hline
        · exact ⟨200,
            ⟨⟨"Report.pdf".data, "C:/Documents".data, "10.05.2023".data, "200".data,
                ['K', 'B'], "work,project".data⟩,
              ⟨by decide, by decide, by decide,
                ⟨by decide, by decide, by simp [Nat.ofDigits]⟩, Or.inl rfl, by decide⟩,
              rfl⟩,
            by decide⟩
        · rcases List.mem_singleton.mp hline with rfl
          exact ⟨3,
            ⟨⟨"readme.doc".data, "C:/Documents".data, "01.01.2020".data, "3".data,
                ['M', 'B'], "work".data⟩,
              ⟨by decide, by decide, by decide,
                ⟨by decide, by decide, by simp [Nat.ofDigits]⟩, Or.inr rfl, by decide⟩,
              rfl⟩,
            by decide⟩))
    (fun recs h => ⟨recs, h.1, h.2.2.trans (by decide)⟩)

end NarcoDoc
